import Mathlib

/-!
Verification development for the archive search engine
(`html_indexer.py`, `query_processor.py`, `web_spider.py`).

The Python code is shallowly embedded:

* machine reals appearing in the source (TF-IDF scores, cosine
  similarities) are modelled as rationals; the two transcendental
  library calls, `math.log(total/df)` and `math.sqrt(x)`, are kept as
  explicit function parameters `lg : Nat -> Nat -> Rat` and
  `sqrtF : Rat -> Rat`, and theorems that depend on their values state
  the needed facts about them as hypotheses (for example that `lg`
  agrees with the real logarithm at the arguments in question, which in
  IEEE arithmetic is exact when the quotient is 1);
* `BeautifulSoup(...).get_text(separator=...)` is an external library;
  it is modelled by `getText`, which erases tag spans and separates the
  remaining text runs by spaces, following section 4.2 of the design
  document ("the concatenation of all visible text nodes with
  whitespace separators");
* Python dicts are modelled as association lists in insertion order;
  Python sets have no specified iteration order, so the embedding fixes
  first-insertion order as a stand-in, and every theorem about a value
  that the source derives from set iteration is stated in an
  order-insensitive way (length, membership, permutation, sortedness);
* `random`-based document-id generation is modelled by an explicit
  id-assignment parameter `docId : String -> String`; the source
  guarantees distinct ids for distinct paths via its `used_ids` set,
  which theorems take as a `Nodup` hypothesis;
* `list.sort(key=..., reverse=True)` and `heapq.nlargest(n, ...)` are
  modelled by the stable `List.mergeSort` (Python sorts are stable, and
  `nlargest` is documented to agree with
  `sorted(iterable, key=key, reverse=True)[:n]`).
-/

namespace WebSearch

/-! ## Tokenizer (html_indexer.py, extract_words_with_positions) -/

/-- Model of `str.lower()` (ASCII case folding, written over the
character list so that it evaluates inside the kernel). -/
def toLowerStr (s : String) : String := String.mk (s.data.map Char.toLower)

/-- Model of `str.endswith(suffix)` over character lists. -/
def strEndsWith (s suffix : String) : Bool := suffix.data.isSuffixOf s.data

/-- Model of `str.startswith(p)` over character lists. -/
def strStartsWith (s p : String) : Bool := p.data.isPrefixOf s.data

/-- The punctuation strip set of the source, the argument of
`word.strip in the tokenizer loop`: the characters
`. , ! ? ; : " ( ) [ ]` and the two curly braces. -/
def punctList : List Char :=
  ['.', ',', '!', '?', ';', ':', '"', '(', ')', '[', ']', '\x7b', '\x7d']

def isPunct (c : Char) : Bool := punctList.contains c

/-- Model of `str.strip(punct)`: drop characters of the strip set from
both ends. -/
def stripChars (cs : List Char) : List Char :=
  ((cs.dropWhile isPunct).reverse.dropWhile isPunct).reverse

/-- Model of `str.split()` on a character list: split on whitespace
runs, dropping empty pieces. The accumulator carries the current word
reversed. -/
def splitWsAux : List Char → List Char → List (List Char)
  | [], acc => if acc = [] then [] else [acc.reverse]
  | c :: cs, acc =>
    if c.isWhitespace then
      if acc = [] then splitWsAux cs [] else acc.reverse :: splitWsAux cs []
    else splitWsAux cs (c :: acc)

def splitWs (s : String) : List String := (splitWsAux s.data []).map String.mk

/-- The stop-word set of `HtmlIndexer._get_default_stop_words`. -/
def stopWords : List String :=
  ["a", "an", "and", "are", "as", "at", "be", "by", "for", "from",
   "has", "he", "in", "is", "it", "its", "of", "on", "that", "the",
   "to", "was", "will", "with", "you", "your", "this", "but", "or",
   "not", "have", "had", "what", "when", "where", "who", "which",
   "why", "how", "all", "any", "both", "each", "few", "more", "most",
   "other", "some", "such", "no", "nor", "only", "own", "same", "so",
   "than", "too", "very", "can", "may", "should", "would", "could"]

/-- Model of `^[a-zA-Z]+$` applied to a nonempty string: every character
is an ASCII letter (`Char.isAlpha` is exactly `[a-zA-Z]`). -/
def isAlphaStr (s : String) : Bool := s.data.all Char.isAlpha

/-- The per-word body of the tokenizer loop:
`cleaned = word.strip(punct).lower()`, keep `cleaned` when it is
nonempty, all-alphabetic and not a stop word. -/
def keepToken (w : String) : Option String :=
  let cleaned := toLowerStr (String.mk (stripChars w.data))
  if cleaned ≠ "" ∧ isAlphaStr cleaned ∧ cleaned ∉ stopWords then some cleaned
  else none

/-- The ordered surviving-token stream of a text: split on whitespace,
then clean and filter each raw word. -/
def tokenizeText (text : String) : List String :=
  (splitWs text).filterMap keepToken

/-- Model of `BeautifulSoup(html).get_text(separator=...)` with a space
separator: characters between `<` and `>` are erased and each erased
tag span contributes a whitespace separator. -/
def getTextAux : List Char → Bool → List Char
  | [], _ => []
  | c :: cs, inTag =>
    if c = '<' then ' ' :: getTextAux cs true
    else if inTag then
      if c = '>' then getTextAux cs false else getTextAux cs true
    else c :: getTextAux cs false

def getText (html : String) : String := String.mk (getTextAux html.data false)

/-- Accumulated positional map of the tokenizer loop: the loop appends
the running position to the entry of each surviving word and then
increments the position, so the positions of `w` in a surviving-token
stream `ws` starting at counter `i` are the indices (offset by `i`) at
which `w` occurs. -/
def posAux : List String → Nat → String → List Nat
  | [], _, _ => []
  | x :: rest, i, w =>
    if x = w then i :: posAux rest (i + 1) w else posAux rest (i + 1) w

/-- Model of `extract_words_with_positions`: extract text from the HTML,
tokenize it, and pair the token stream with its positional map. -/
def extract_words_with_positions (html : String) :
    List String × (String → List Nat) :=
  let ws := tokenizeText (getText html)
  (ws, fun w => posAux ws 0 w)

/-- Text augmentation step of `extract_words_with_positions_and_anchors`:
when the anchor list is nonempty, the space-joined anchor text is
appended twice to the text, each time behind a space separator. -/
def augmentText (text : String) (anchor_texts : List String) : String :=
  if anchor_texts.isEmpty then text
  else
    text ++ " " ++ String.intercalate " " anchor_texts
         ++ " " ++ String.intercalate " " anchor_texts

/-- Model of `extract_words_with_positions_and_anchors`. -/
def extract_words_with_positions_and_anchors
    (html : String) (anchor_texts : List String) :
    List String × (String → List Nat) :=
  let ws := tokenizeText (augmentText (getText html) anchor_texts)
  (ws, fun w => posAux ws 0 w)

/-! ## Index construction (html_indexer.py) -/

structure DocumentRecord where
  doc_id : String
  url : String
  length : Nat
  unique_words : Nat
deriving DecidableEq, Repr

structure PostingRecord where
  doc_id : String
  term_frequency : Nat
  tf_idf : ℚ
  positions : List Nat
deriving DecidableEq, Repr

structure InvertedIndexEntry where
  word : String
  document_frequency : Nat
  postings : List PostingRecord
deriving DecidableEq, Repr

/-- Per-document data collected by pass 1 of the index build. -/
structure DocData where
  id : String
  url : String
  words : List String
deriving DecidableEq, Repr

/-- Model of `HtmlIndexer.calculate_tf_idf`. `lg n d` stands for the
float computation `math.log(n / d)`; the source guards the zero cases
before dividing. -/
def calculate_tf_idf (lg : Nat → Nat → ℚ) (total_documents : Nat)
    (term_freq doc_length doc_freq : Nat) : ℚ :=
  if term_freq = 0 ∨ doc_freq = 0 then 0
  else ((term_freq : ℚ) / (doc_length : ℚ)) * lg total_documents doc_freq

/-- Duplicate removal keeping first occurrences; `seen` holds the
elements already emitted. -/
def dedupFirstAux {α : Type} [DecidableEq α] : List α → List α → List α
  | [], _ => []
  | x :: rest, seen =>
    if x ∈ seen then dedupFirstAux rest seen
    else x :: dedupFirstAux rest (x :: seen)

/-- Duplicate removal keeping first occurrences, the key order of a
Python `Counter` or `dict` built by repeated insertion. -/
def dedupFirst {α : Type} [DecidableEq α] (l : List α) : List α :=
  dedupFirstAux l []

/-- Document frequency of pass 2: the number of documents whose word
multiset contains the word. -/
def dfCount (ds : List DocData) (w : String) : Nat :=
  (ds.filter (fun d => decide (w ∈ d.words))).length

/-- Key list of `word_doc_frequencies` in insertion order: words in
order of first appearance, per document in first-occurrence order. -/
def indexVocab (ds : List DocData) : List String :=
  dedupFirst (ds.flatMap (fun d => dedupFirst d.words))

/-- The posting that pass 2 emits for word `w` in document `d`. -/
def postingOf (lg : Nat → Nat → ℚ) (total_documents : Nat)
    (ds : List DocData) (w : String) (d : DocData) : PostingRecord :=
  { doc_id := d.id
    term_frequency := d.words.count w
    tf_idf := calculate_tf_idf lg total_documents (d.words.count w)
                d.words.length (dfCount ds w)
    positions := posAux d.words 0 w }

/-- The unsorted posting list assembled by pass 2 for one word, in
document insertion order. -/
def mkPostings (lg : Nat → Nat → ℚ) (total_documents : Nat)
    (ds : List DocData) (w : String) : List PostingRecord :=
  ds.filterMap (fun d =>
    if w ∈ d.words then some (postingOf lg total_documents ds w d) else none)

/-- Comparator of `postings.sort(key=lambda p: p.tf_idf, reverse=True)`:
a stable sort placing larger TF-IDF first. -/
def postingLe (p q : PostingRecord) : Bool := decide (q.tf_idf ≤ p.tf_idf)

def buildEntry (lg : Nat → Nat → ℚ) (ds : List DocData) (w : String) :
    InvertedIndexEntry :=
  { word := w
    document_frequency := dfCount ds w
    postings := (mkPostings lg ds.length ds w).mergeSort postingLe }

/-- The queryable state a finished index build leaves behind. -/
structure BuiltIndex where
  document_list : List (String × DocumentRecord)
  inverted_index : List (String × InvertedIndexEntry)
  total_documents : Nat
deriving Repr

/-- The document record that pass 1 stores for a document:
`len(words)` and `len(set(words))`. -/
def recordOf (d : DocData) : DocumentRecord :=
  { doc_id := d.id
    url := d.url
    length := d.words.length
    unique_words := (dedupFirst d.words).length }

/-- Pass 1 plus pass 2 over already-tokenized documents, shared by the
zip build and the crawled build (their second passes are identical). -/
def buildFromDocData (lg : Nat → Nat → ℚ) (ds : List DocData) : BuiltIndex :=
  { document_list := ds.map (fun d => (d.id, recordOf d))
    inverted_index := (indexVocab ds).map (fun w => (w, buildEntry lg ds w))
    total_documents := ds.length }

/-- Pass 1 of `build_index_from_crawled_documents`: assign an id to each
crawled URL and tokenize its document with the anchor texts recorded
for that URL. -/
def crawledPass1 (docId : String → String)
    (documents : List (String × String))
    (anchor_texts_map : String → List String) : List DocData :=
  documents.map (fun d =>
    { id := docId d.1, url := d.1
      words := (extract_words_with_positions_and_anchors d.2
                  (anchor_texts_map d.1)).1 })

/-- Model of `HtmlIndexer.build_index_from_crawled_documents`. -/
def build_index_from_crawled_documents (docId : String → String)
    (lg : Nat → Nat → ℚ) (documents : List (String × String))
    (anchor_texts_map : String → List String) : BuiltIndex :=
  buildFromDocData lg (crawledPass1 docId documents anchor_texts_map)

/-- Pass 1 of `process_zip_file`: keep the zip entries whose name ends
in the literal suffix `.html`, assign an id to `"./" + name`, and
tokenize without anchor texts. -/
def zipPass1 (docId : String → String)
    (entries : List (String × String)) : List DocData :=
  (entries.filter (fun e => strEndsWith e.1 ".html")).map (fun e =>
    { id := docId ("./" ++ e.1), url := e.1
      words := (extract_words_with_positions e.2).1 })

/-- Model of `HtmlIndexer.process_zip_file`. -/
def process_zip_file (docId : String → String) (lg : Nat → Nat → ℚ)
    (entries : List (String × String)) : BuiltIndex :=
  buildFromDocData lg (zipPass1 docId entries)

/-! ## Query processor (query_processor.py)

Each search method is a function of the index, the parsed terms and the
previous value of `last_total_count`; it returns the result list
together with the new value of `last_total_count`. The early-return
paths of the source (`return []` before the counting line) leave the
count at its previous value. -/

/-- Lookup in an insertion-ordered association list (a Python dict whose
keys are unique). -/
def assocFind {α : Type} (k : String) : List (String × α) → Option α
  | [] => none
  | kv :: rest => if kv.1 = k then some kv.2 else assocFind k rest

structure QueryResult where
  doc_id : String
  score : ℚ
deriving DecidableEq, Repr

/-- Model of `HtmlIndexer.get_inverted_index_entry`: dictionary lookup
of the lowercased word. -/
def lookupEntry (idx : BuiltIndex) (word : String) : Option InvertedIndexEntry :=
  assocFind (toLowerStr word) idx.inverted_index

def postingDocs (e : InvertedIndexEntry) : List String :=
  e.postings.map (fun p => p.doc_id)

def findPosting (e : InvertedIndexEntry) (doc : String) : Option PostingRecord :=
  e.postings.find? (fun p => decide (p.doc_id = doc))

/-- TF-IDF of a term in a document as the query processor reads it off
the posting list (0 when absent, matching `dict.get(term, 0)`). -/
def tfIdfOf (idx : BuiltIndex) (t : String) (doc : String) : ℚ :=
  match lookupEntry idx t with
  | some e =>
    match findPosting e doc with
    | some p => p.tf_idf
    | none => 0
  | none => 0

/-- Comparator of `sorted(results, key=lambda x: x.score, reverse=True)`
and of `heapq.nlargest(..., key=lambda x: x.score)`. -/
def resultLe (a b : QueryResult) : Bool := decide (b.score ≤ a.score)

def sortResultsDesc (rs : List QueryResult) : List QueryResult :=
  rs.mergeSort resultLe

/-- `heapq.nlargest(n, rs, key)` is documented to equal
`sorted(rs, key=key, reverse=True)[:n]` (a stable descending sort, then
a prefix). -/
def nlargest (n : Nat) (rs : List QueryResult) : List QueryResult :=
  (sortResultsDesc rs).take n

/-- The shared tail of all five search methods: keep the 100 best when
more than 100 results were assembled, otherwise sort them all. -/
def limitResults (rs : List QueryResult) : List QueryResult :=
  if rs.length > 100 then nlargest 100 rs else sortResultsDesc rs

/-- The count-setting and top-K property a search method satisfies on a
path that reaches result assembly, relative to its assembled match list
`a`: the new `last_total_count` is the full match count; the returned
list is sorted by score descending; with at most 100 matches it is a
permutation of all matches; with more than 100 it has exactly 100
results, each an assembled match, and no dropped match outscores a
returned one. -/
def limitSpec (res : List QueryResult × Nat) (a : List QueryResult) : Prop :=
  res.2 = a.length ∧
  res.1.Pairwise (fun x y => y.score ≤ x.score) ∧
  (a.length ≤ 100 → res.1.Perm a) ∧
  (a.length > 100 → res.1.length = 100 ∧ (∀ x ∈ res.1, x ∈ a) ∧
    (∀ x ∈ a, x ∉ res.1 → ∀ y ∈ res.1, x.score ≤ y.score))

/-- One step of the `doc_scores` accumulation of `boolean_or_search`:
`doc_scores[p.doc_id] = max(doc_scores[p.doc_id], p.tf_idf)` over a
`defaultdict(float)`. -/
def orUpdate (m : List (String × ℚ)) (p : PostingRecord) : List (String × ℚ) :=
  match assocFind p.doc_id m with
  | some cur =>
    m.map (fun kv => if kv.1 = p.doc_id then (kv.1, max cur p.tf_idf) else kv)
  | none => m ++ [(p.doc_id, max 0 p.tf_idf)]

def orScores (idx : BuiltIndex) (terms : List String) : List (String × ℚ) :=
  terms.foldl (fun m t =>
    match lookupEntry idx t with
    | some e => e.postings.foldl orUpdate m
    | none => m) []

/-- The unlimited result list of `boolean_or_search`, in first-insertion
order (the source iterates a Python set here; every theorem below is
insensitive to that order). -/
def orAssembled (idx : BuiltIndex) (terms : List String) : List QueryResult :=
  (orScores idx terms).map (fun kv => { doc_id := kv.1, score := kv.2 })

/-- Model of `QueryProcessor.boolean_or_search`. -/
def boolean_or_search (idx : BuiltIndex) (terms : List String) (_prev : Nat) :
    List QueryResult × Nat :=
  (limitResults (orAssembled idx terms), (orAssembled idx terms).length)

/-- The docs lying in every posting list of `terms`, enumerated in the
posting order of the first term (a stand-in for Python set-intersection
iteration order). -/
def commonDocs (idx : BuiltIndex) (terms : List String) : List String :=
  match terms with
  | [] => []
  | t0 :: rest =>
    match lookupEntry idx t0 with
    | none => []
    | some e0 =>
      (postingDocs e0).filter (fun d =>
        rest.all (fun t =>
          match lookupEntry idx t with
          | some e => (postingDocs e).contains d
          | none => false))

/-- The unlimited result list of `boolean_and_search`: every common
document scored with the sum of the TF-IDF of each query term in it. -/
def andAssembled (idx : BuiltIndex) (terms : List String) : List QueryResult :=
  (commonDocs idx terms).map (fun d =>
    { doc_id := d, score := (terms.map (fun t => tfIdfOf idx t d)).sum })

/-- Model of `QueryProcessor.boolean_and_search`: empty term list or a
term absent from the dictionary returns before the counting line. -/
def boolean_and_search (idx : BuiltIndex) (terms : List String) (prev : Nat) :
    List QueryResult × Nat :=
  if terms = [] then ([], prev)
  else if terms.all (fun t => (lookupEntry idx t).isSome) then
    (limitResults (andAssembled idx terms), (andAssembled idx terms).length)
  else ([], prev)

/-- The match list assembled by `boolean_not_search` once the include
term's entry `ie` has been found: the include postings minus the doc set
of the exclude term, in posting order. -/
def notAssembled (idx : BuiltIndex) (ie : InvertedIndexEntry)
    (exclude_term : String) : List QueryResult :=
  let exclude_docs :=
    match lookupEntry idx exclude_term with
    | some ee => postingDocs ee
    | none => []
  ie.postings.filterMap (fun p =>
    if p.doc_id ∈ exclude_docs then none
    else some { doc_id := p.doc_id, score := p.tf_idf })

/-- Model of `QueryProcessor.boolean_not_search`: postings of the
include term, minus the doc set of the exclude term, in posting order. -/
def boolean_not_search (idx : BuiltIndex) (include_term exclude_term : String)
    (prev : Nat) : List QueryResult × Nat :=
  match lookupEntry idx include_term with
  | none => ([], prev)
  | some ie =>
    (limitResults (notAssembled idx ie exclude_term),
      (notAssembled idx ie exclude_term).length)

/-- Candidate documents of `vector_space_search`: the union of the
posting doc sets of the query terms, in first-insertion order. -/
def vectorCandidates (idx : BuiltIndex) (terms : List String) : List String :=
  dedupFirst ((dedupFirst terms).flatMap (fun t =>
    match lookupEntry idx t with
    | some e => postingDocs e
    | none => []))

/-- The sparse document vector entry for one query term: the TF-IDF of
the term in the document when the term is in the dictionary and its
posting list holds the document. -/
def docVecEntry (idx : BuiltIndex) (doc t : String) : Option ℚ :=
  match lookupEntry idx t with
  | some e =>
    match findPosting e doc with
    | some p => some p.tf_idf
    | none => none
  | none => none

/-- Per-candidate body of the `vector_space_search` loop: skip a
candidate without a document record or with an all-zero restricted
vector, otherwise keep its cosine score when positive. `sqrtF` stands
for `math.sqrt`. -/
def vectorDocScore (sqrtF : ℚ → ℚ) (idx : BuiltIndex) (terms : List String)
    (qlen : ℚ) (doc : String) : Option ℚ :=
  match assocFind doc idx.document_list with
  | none => none
  | some _ =>
    let dlsq := (((dedupFirst terms).filterMap (docVecEntry idx doc)).map
      (fun x => x * x)).sum
    if dlsq = 0 then none
    else
      let dot := ((dedupFirst terms).map (fun t =>
        ((terms.count t : ℚ)) * ((docVecEntry idx doc t).getD 0))).sum
      let cos := dot / (qlen * sqrtF dlsq)
      if 0 < cos then some cos else none

/-- The unlimited result list of `vector_space_search`. -/
def vectorAssembled (sqrtF : ℚ → ℚ) (idx : BuiltIndex) (terms : List String)
    (qlen : ℚ) : List QueryResult :=
  (vectorCandidates idx terms).filterMap (fun doc =>
    (vectorDocScore sqrtF idx terms qlen doc).map
      (fun s => { doc_id := doc, score := s }))

/-- The squared query length of `vector_space_search`: the sum of the
squared term frequencies of the query vector. -/
def vectorQlsq (terms : List String) : ℚ :=
  ((dedupFirst terms).map (fun t =>
    ((terms.count t : ℚ)) * ((terms.count t : ℚ)))).sum

/-- Model of `QueryProcessor.vector_space_search`. The query length is
`math.sqrt` of the sum of squared query term frequencies; a zero query
length returns before the counting line (as does an empty term list). -/
def vector_space_search (sqrtF : ℚ → ℚ) (idx : BuiltIndex)
    (terms : List String) (prev : Nat) : List QueryResult × Nat :=
  if terms = [] then ([], prev)
  else
    let qlen := sqrtF (vectorQlsq terms)
    if qlen = 0 then ([], prev)
    else
      (limitResults (vectorAssembled sqrtF idx terms qlen),
       (vectorAssembled sqrtF idx terms qlen).length)

/-- Positions of a term in a document as the phrase matcher reads them
off the posting list. -/
def positionsOf (idx : BuiltIndex) (t : String) (doc : String) : List Nat :=
  match lookupEntry idx t with
  | some e =>
    match findPosting e doc with
    | some p => p.positions
    | none => []
  | none => []

/-- The consecutive-position check of `phrase_search`: some position of
the first token is followed, offset by offset `i`, by a position of
token `i` for every later token. -/
def phraseCheck (idx : BuiltIndex) (terms : List String) (doc : String) : Bool :=
  match terms with
  | [] => false
  | t0 :: rest =>
    (positionsOf idx t0 doc).any (fun p0 =>
      (List.range rest.length).all (fun i =>
        (positionsOf idx (rest.getD i "") doc).contains (p0 + i + 1)))

/-- The unlimited result list of `phrase_search`: common documents that
pass the consecutive-position check, scored by the mean TF-IDF of the
phrase tokens. -/
def phraseAssembled (idx : BuiltIndex) (terms : List String) : List QueryResult :=
  (commonDocs idx terms).filterMap (fun d =>
    if phraseCheck idx terms d then
      some { doc_id := d
             score := ((terms.map (fun t => tfIdfOf idx t d)).sum) /
                      ((terms.length : ℚ)) }
    else none)

/-- Model of `QueryProcessor.phrase_search`: empty term list or a token
absent from the dictionary returns before the counting line. -/
def phrase_search (idx : BuiltIndex) (terms : List String) (prev : Nat) :
    List QueryResult × Nat :=
  if terms = [] then ([], prev)
  else if terms.all (fun t => (lookupEntry idx t).isSome) then
    (limitResults (phraseAssembled idx terms), (phraseAssembled idx terms).length)
  else ([], prev)

/-- The five parsed query shapes of `QueryProcessor.parse_query`. -/
inductive QueryPlan where
  | phrase (terms : List String)
  | bool_or (terms : List String)
  | bool_and (terms : List String)
  | bool_not (include_term exclude_term : String)
  | vector (terms : List String)
deriving DecidableEq, Repr

/-- The dispatch of `QueryProcessor.process_query` on a parsed plan. -/
def processParsedQuery (sqrtF : ℚ → ℚ) (idx : BuiltIndex) (plan : QueryPlan)
    (prev : Nat) : List QueryResult × Nat :=
  match plan with
  | .phrase terms => phrase_search idx terms prev
  | .bool_or terms => boolean_or_search idx terms prev
  | .bool_and terms => boolean_and_search idx terms prev
  | .bool_not inc exc => boolean_not_search idx inc exc prev
  | .vector terms => vector_space_search sqrtF idx terms prev

/-! ## Spider link recording and archive entry filters (web_spider.py) -/

/-- One iteration of the link loop shared by the three crawl variants:
the target gets a (possibly empty) anchor inbox the first time it is
seen, and only a non-empty anchor text is appended to it. -/
def recordLink (m : List (String × List String)) (link : String × String) :
    List (String × List String) :=
  let m1 := if (assocFind link.1 m).isSome then m else m ++ [(link.1, [])]
  if link.2 = "" then m1
  else m1.map (fun kv => if kv.1 = link.1 then (kv.1, kv.2 ++ [link.2]) else kv)

def recordLinks (m : List (String × List String))
    (links : List (String × String)) : List (String × List String) :=
  links.foldl recordLink m

/-- The `urls_with_anchor_texts` statistic of `WebSpider.get_statistics`:
`len(self.anchor_texts)`. -/
def urls_with_anchor_texts (m : List (String × List String)) : Nat := m.length

/-- The html-cache filter of `_crawl_breadth_first_chunked`: entry names
ending in the literal suffix `.html` or `.htm` and not starting with
`__MACOSX`. -/
def spiderHtmlEntries (names : List String) : List String :=
  names.filter (fun f =>
    (strEndsWith f ".html" || strEndsWith f ".htm") && !(strStartsWith f "__MACOSX"))

/-- The entry filter of `HtmlIndexer.process_zip_file`: names ending in
the literal suffix `.html` only, with no `__MACOSX` exclusion. -/
def zipIndexCandidates (names : List String) : List String :=
  names.filter (fun f => strEndsWith f ".html")

/-- The candidate predicate as the specification words it: lowercase
name ends with `.html` or `.htm`, and the path does not begin with
`__MACOSX`. Stated from the spec for comparison with the two source
filters above. -/
def claimedHtmlEntry (f : String) : Bool :=
  (strEndsWith (toLowerStr f) ".html" || strEndsWith (toLowerStr f) ".htm") &&
    !(strStartsWith f "__MACOSX")

/-! ## Concrete instances used by witnesses and counterexamples -/

/-- Stand-in for the float computation `math.log(n / d)` on the
end-to-end corpora below: it is exact at `n = d` (IEEE `log(1.0)` is
exactly `0.0`) and a positive placeholder elsewhere (the real value
`log(n/d)` is positive whenever `d < n`). Every concrete statement
below depends only on the exact `n = d` case. -/
def lgEx : Nat → Nat → ℚ := fun n d => if n = d then 0 else 1

/-- Stand-in for `math.sqrt` in concrete runs; the statements below only
use that it is positive on inputs that are at least 1, which holds for
the IEEE square root. -/
def sqrtEx : ℚ → ℚ := fun q => q

/-- The two-document corpus of the end-to-end scenarios:
`a.html = <p>cat dog</p>` and `b.html = <p>dog bird</p>`. -/
def exDocs : List (String × String) :=
  [("a.html", "<p>cat dog</p>"), ("b.html", "<p>dog bird</p>")]

/-- A concrete outcome of the random id assignment for `exDocs`. -/
def exDocId : String → String :=
  fun u => if u = "a.html" then "a1000" else "b2000"

def exIdx : BuiltIndex :=
  build_index_from_crawled_documents exDocId lgEx exDocs (fun _ => [])

/-- Two documents with identical content whose assigned ids are in the
reverse of insertion order. -/
def tieDocs : List (String × String) := [("u1", "cat"), ("u2", "cat")]

def tieDocId : String → String :=
  fun u => if u = "u1" then "b1000" else "a1000"

def tieIdx : BuiltIndex :=
  build_index_from_crawled_documents tieDocId lgEx tieDocs (fun _ => [])

/-- 101 documents, each reading `cat dog`. -/
def bigDocs : List (String × String) :=
  (List.range 101).map (fun i => ("u" ++ toString i, "cat dog"))

def bigIdx : BuiltIndex :=
  build_index_from_crawled_documents (fun u => u) lgEx bigDocs (fun _ => [])

/-- The anchor texts the link loop appends for one target: the non-empty
anchor strings of the links aimed at it, in order. Used to state what
`recordLinks` accumulates. -/
def anchorAppend (t : String) (links : List (String × String)) : List String :=
  (links.filter (fun l => decide (l.1 = t))).filterMap
    (fun l => if l.2 = "" then none else some l.2)

/-- Pass-1 data of the two-document corpus. -/
def exDs : List DocData := crawledPass1 exDocId exDocs (fun _ => [])

/-- A one-document corpus; its only term has document frequency equal to
the corpus size, where the IEEE logarithm is exactly 0. -/
def oneDocs : List (String × String) := [("a.html", "<p>cat</p>")]

def oneDs : List DocData := crawledPass1 exDocId oneDocs (fun _ => [])

def oneIdx : BuiltIndex := buildFromDocData lgEx oneDs

/-- Pass-1 data of the tied two-document corpus. -/
def tieDs : List DocData := crawledPass1 tieDocId tieDocs (fun _ => [])

/-- Pass-1 data of the 101-document corpus. -/
def bigDs : List DocData := crawledPass1 (fun u => u) bigDocs (fun _ => [])

/-! ## Helper lemmas: positions -/

theorem posAux_le {ws : List String} {i : Nat} {w : String} :
    ∀ p ∈ posAux ws i w, i ≤ p := by
  induction ws generalizing i with
  | nil => intro p hp; simp [posAux] at hp
  | cons x rest ih =>
    intro p hp
    by_cases hx : x = w
    · simp only [posAux, if_pos hx, List.mem_cons] at hp
      rcases hp with rfl | hp
      · exact le_refl _
      · exact le_trans (Nat.le_succ i) (ih p hp)
    · simp only [posAux, if_neg hx] at hp
      exact le_trans (Nat.le_succ i) (ih p hp)

theorem posAux_pairwise (ws : List String) (i : Nat) (w : String) :
    (posAux ws i w).Pairwise (fun p q => p < q) := by
  induction ws generalizing i with
  | nil => simp [posAux]
  | cons x rest ih =>
    by_cases hx : x = w
    · simp only [posAux, if_pos hx]
      refine List.Pairwise.cons (fun q hq => ?_) (ih (i + 1))
      exact lt_of_lt_of_le (Nat.lt_succ_self i) (posAux_le q hq)
    · simpa only [posAux, if_neg hx] using ih (i + 1)

theorem posAux_length (ws : List String) (i : Nat) (w : String) :
    (posAux ws i w).length = ws.count w := by
  induction ws generalizing i with
  | nil => simp [posAux]
  | cons x rest ih =>
    by_cases hx : x = w
    · simp [posAux, hx, List.count_cons, ih (i + 1)]
    · simp [posAux, hx, List.count_cons, ih (i + 1)]

theorem posAux_eq_map (ws : List String) (i : Nat) (w : String) :
    posAux ws i w = (posAux ws 0 w).map (fun p => p + i) := by
  induction ws generalizing i with
  | nil => simp [posAux]
  | cons x rest ih =>
    by_cases hx : x = w
    · simp only [posAux, if_pos hx, List.map_cons, Nat.zero_add]
      rw [ih (i + 1), ih 1, List.map_map]
      refine congrArg _ (congrArg (fun f => List.map f _) ?_)
      funext p
      simp only [Function.comp_apply]
      omega
    · simp only [posAux, if_neg hx]
      rw [ih (i + 1), ih 1, List.map_map]
      refine congrArg (fun f => List.map f _) ?_
      funext p
      simp only [Function.comp_apply]
      omega

theorem posAux_append (xs ys : List String) (i : Nat) (w : String) :
    posAux (xs ++ ys) i w = posAux xs i w ++ posAux ys (i + xs.length) w := by
  induction xs generalizing i with
  | nil => simp [posAux]
  | cons x rest ih =>
    have harith : i + 1 + rest.length = i + (rest.length + 1) := by omega
    by_cases hx : x = w
    · simp only [List.cons_append, posAux, if_pos hx, List.length_cons]
      rw [show rest.append ys = rest ++ ys from rfl, ih (i + 1), harith]
    · simp only [List.cons_append, posAux, if_neg hx, List.length_cons]
      rw [show rest.append ys = rest ++ ys from rfl, ih (i + 1), harith]

theorem posAux_mem_iff {ws : List String} {w : String} {p : Nat} :
    p ∈ posAux ws 0 w ↔ ws[p]? = some w := by
  induction ws generalizing p with
  | nil => simp [posAux]
  | cons x rest ih =>
    have hshift : posAux rest 1 w = (posAux rest 0 w).map (fun q => q + 1) :=
      posAux_eq_map rest 1 w
    by_cases hx : x = w
    · simp only [posAux, if_pos hx, List.mem_cons, hshift, List.mem_map]
      cases p with
      | zero => simp [hx]
      | succ n =>
        simp only [List.getElem?_cons_succ, ← ih]
        constructor
        · rintro (h | ⟨q, hq, hq1⟩)
          · exact absurd h (by omega)
          · have : q = n := by omega
            exact this ▸ hq
        · intro h; exact Or.inr ⟨n, h, rfl⟩
    · simp only [posAux, if_neg hx, hshift, List.mem_map]
      cases p with
      | zero =>
        simp only [List.getElem?_cons_zero]
        constructor
        · rintro ⟨q, _, hq1⟩; omega
        · intro h
          exact absurd (Option.some_injective _ h) hx
      | succ n =>
        simp only [List.getElem?_cons_succ, ← ih]
        constructor
        · rintro ⟨q, hq, hq1⟩
          have : q = n := by omega
          exact this ▸ hq
        · intro h; exact ⟨n, h, rfl⟩

/-! ## Helper lemmas: first-occurrence duplicate removal -/

theorem mem_dedupFirstAux {α : Type} [DecidableEq α] {l seen : List α} {x : α} :
    x ∈ dedupFirstAux l seen ↔ x ∈ l ∧ x ∉ seen := by
  induction l generalizing seen with
  | nil => simp [dedupFirstAux]
  | cons y rest ih =>
    constructor
    · intro h
      by_cases hy : y ∈ seen
      · simp only [dedupFirstAux, if_pos hy] at h
        obtain ⟨h1, h2⟩ := ih.mp h
        exact ⟨List.mem_cons_of_mem _ h1, h2⟩
      · simp only [dedupFirstAux, if_neg hy] at h
        rcases List.mem_cons.mp h with rfl | h
        · exact ⟨List.mem_cons_self _ _, hy⟩
        · obtain ⟨h1, h2⟩ := ih.mp h
          exact ⟨List.mem_cons_of_mem _ h1,
            fun hc => h2 (List.mem_cons_of_mem _ hc)⟩
    · rintro ⟨h1, h2⟩
      by_cases hy : y ∈ seen
      · simp only [dedupFirstAux, if_pos hy]
        rcases List.mem_cons.mp h1 with rfl | h1
        · exact absurd hy h2
        · exact ih.mpr ⟨h1, h2⟩
      · simp only [dedupFirstAux, if_neg hy]
        rcases List.mem_cons.mp h1 with rfl | h1
        · exact List.mem_cons_self _ _
        · by_cases hxy : x = y
          · exact hxy ▸ List.mem_cons_self _ _
          · refine List.mem_cons_of_mem _ (ih.mpr ⟨h1, fun hc => ?_⟩)
            rcases List.mem_cons.mp hc with h3 | h3
            · exact hxy h3
            · exact h2 h3

theorem nodup_dedupFirstAux {α : Type} [DecidableEq α] (l seen : List α) :
    (dedupFirstAux l seen).Nodup := by
  induction l generalizing seen with
  | nil => simp [dedupFirstAux]
  | cons y rest ih =>
    by_cases hy : y ∈ seen
    · simpa [dedupFirstAux, if_pos hy] using ih seen
    · simp only [dedupFirstAux, if_neg hy]
      refine List.Nodup.cons (fun hc => ?_) (ih (y :: seen))
      exact (mem_dedupFirstAux.mp hc).2 (List.mem_cons_self _ _)

theorem mem_dedupFirst {α : Type} [DecidableEq α] {l : List α} {x : α} :
    x ∈ dedupFirst l ↔ x ∈ l := by
  simp [dedupFirst, mem_dedupFirstAux]

theorem nodup_dedupFirst {α : Type} [DecidableEq α] (l : List α) :
    (dedupFirst l).Nodup := nodup_dedupFirstAux l []

/-! ## Helper lemmas: association lists and unique finds -/

theorem assocFind_map {α β : Type} (k : String) (key : α → String)
    (val : α → β) (l : List α) :
    assocFind k (l.map (fun x => (key x, val x))) =
      Option.map val (l.find? (fun x => decide (key x = k))) := by
  induction l with
  | nil => simp [assocFind]
  | cons x rest ih =>
    by_cases hx : key x = k
    · simp [assocFind, List.find?_cons, hx, ih]
    · simp [assocFind, List.find?_cons, hx, ih]

theorem find?_self_eq {α : Type} [DecidableEq α] (k : α) (l : List α) :
    l.find? (fun x => decide (x = k)) = if k ∈ l then some k else none := by
  induction l with
  | nil => simp
  | cons x rest ih =>
    by_cases hx : x = k
    · subst hx; simp [List.find?_cons]
    · simp only [List.find?_cons, decide_eq_true_eq, hx, decide_False,
        List.mem_cons, ih]
      simp [Ne.symm hx, hx]

theorem find?_unique {α : Type} (key : α → String) {l : List α} {x : α}
    (hn : (l.map key).Nodup) (hx : x ∈ l) :
    l.find? (fun y => decide (key y = key x)) = some x := by
  induction l with
  | nil => simp at hx
  | cons y rest ih =>
    simp only [List.map_cons, List.nodup_cons] at hn
    rcases List.mem_cons.mp hx with rfl | hx
    · simp [List.find?_cons]
    · have hne : key y ≠ key x := by
        intro hc
        exact hn.1 (hc ▸ List.mem_map_of_mem key hx)
      simp only [List.find?_cons, decide_eq_true_eq, hne, decide_False]
      simpa using ih hn.2 hx

theorem nodup_key_inj {α : Type} (key : α → String) {l : List α}
    (hn : (l.map key).Nodup) {x y : α} (hx : x ∈ l) (hy : y ∈ l)
    (hk : key x = key y) : x = y :=
  List.inj_on_of_nodup_map hn hx hy hk

/-! ## Helper lemmas: stable descending sorts and the top-K limit -/

theorem resultLe_trans : ∀ a b c : QueryResult,
    resultLe a b = true → resultLe b c = true → resultLe a c = true := by
  intro a b c h1 h2
  simp only [resultLe, decide_eq_true_eq] at *
  exact le_trans h2 h1

theorem resultLe_total : ∀ a b : QueryResult,
    (resultLe a b || resultLe b a) = true := by
  intro a b
  simp only [resultLe, Bool.or_eq_true, decide_eq_true_eq]
  exact le_total b.score a.score

theorem sortResultsDesc_sorted (rs : List QueryResult) :
    (sortResultsDesc rs).Pairwise (fun a b => b.score ≤ a.score) := by
  have h := @List.sorted_mergeSort QueryResult resultLe
    resultLe_trans resultLe_total rs
  exact h.imp (fun hab => by
    simpa only [resultLe, decide_eq_true_eq] using hab)

theorem sortResultsDesc_perm (rs : List QueryResult) :
    (sortResultsDesc rs).Perm rs :=
  List.mergeSort_perm rs resultLe

theorem limitResults_sorted (rs : List QueryResult) :
    (limitResults rs).Pairwise (fun a b => b.score ≤ a.score) := by
  unfold limitResults nlargest
  split
  · exact List.Pairwise.sublist (List.take_sublist _ _) (sortResultsDesc_sorted rs)
  · exact sortResultsDesc_sorted rs

theorem limitResults_perm_of_le {rs : List QueryResult}
    (h : ¬ rs.length > 100) : (limitResults rs).Perm rs := by
  unfold limitResults
  rw [if_neg h]
  exact sortResultsDesc_perm rs

theorem limitResults_length_of_gt {rs : List QueryResult}
    (h : rs.length > 100) : (limitResults rs).length = 100 := by
  unfold limitResults nlargest
  rw [if_pos h, List.length_take]
  have := (sortResultsDesc_perm rs).length_eq
  omega

theorem limitResults_subset {rs : List QueryResult} :
    ∀ x ∈ limitResults rs, x ∈ rs := by
  intro x hx
  unfold limitResults nlargest at hx
  have hx2 : x ∈ sortResultsDesc rs := by
    by_cases h : rs.length > 100
    · rw [if_pos h] at hx
      exact (List.take_sublist _ _).mem hx
    · rwa [if_neg h] at hx
  exact (sortResultsDesc_perm rs).mem_iff.mp hx2

theorem limitResults_top_of_gt {rs : List QueryResult}
    (h : rs.length > 100) {x : QueryResult} (hx : x ∈ rs)
    (hnx : x ∉ limitResults rs) :
    ∀ y ∈ limitResults rs, x.score ≤ y.score := by
  intro y hy
  have hsplit := List.take_append_drop 100 (sortResultsDesc rs)
  have hsorted := sortResultsDesc_sorted rs
  rw [← hsplit, List.pairwise_append] at hsorted
  have hlim : limitResults rs = (sortResultsDesc rs).take 100 := by
    unfold limitResults nlargest
    rw [if_pos h]
  have hxs : x ∈ sortResultsDesc rs := (sortResultsDesc_perm rs).mem_iff.mpr hx
  rw [← hsplit] at hxs
  rcases List.mem_append.mp hxs with hxt | hxd
  · exact absurd (hlim ▸ hxt) hnx
  · exact hsorted.2.2 y (hlim ▸ hy) x hxd

theorem postingLe_trans : ∀ a b c : PostingRecord,
    postingLe a b = true → postingLe b c = true → postingLe a c = true := by
  intro a b c h1 h2
  simp only [postingLe, decide_eq_true_eq] at *
  exact le_trans h2 h1

theorem postingLe_total : ∀ a b : PostingRecord,
    (postingLe a b || postingLe b a) = true := by
  intro a b
  simp only [postingLe, Bool.or_eq_true, decide_eq_true_eq]
  exact le_total b.tf_idf a.tf_idf

/-! ## Helper lemmas: the built index -/

theorem mem_indexVocab {ds : List DocData} {w : String} :
    w ∈ indexVocab ds ↔ ∃ d ∈ ds, w ∈ d.words := by
  simp [indexVocab, mem_dedupFirst, List.mem_flatMap]

theorem assocFind_map_id {β : Type} (k : String) (val : String → β)
    (l : List String) :
    assocFind k (l.map (fun x => (x, val x))) =
      Option.map val (l.find? (fun x => decide (x = k))) := by
  induction l with
  | nil => simp [assocFind]
  | cons x rest ih =>
    by_cases hx : x = k
    · simp [assocFind, List.find?_cons, hx]
    · simp [assocFind, List.find?_cons, hx, ih]

theorem lookupEntry_build (lg : Nat → Nat → ℚ) (ds : List DocData)
    {w : String} (hw : toLowerStr w = w) :
    lookupEntry (buildFromDocData lg ds) w =
      if w ∈ indexVocab ds then some (buildEntry lg ds w) else none := by
  unfold lookupEntry buildFromDocData
  rw [hw, assocFind_map_id w (buildEntry lg ds) (indexVocab ds),
    find?_self_eq]
  by_cases h : w ∈ indexVocab ds
  · simp [h]
  · simp [h]

theorem mem_inverted_index {lg : Nat → Nat → ℚ} {ds : List DocData}
    {w : String} {e : InvertedIndexEntry} :
    (w, e) ∈ (buildFromDocData lg ds).inverted_index ↔
      w ∈ indexVocab ds ∧ e = buildEntry lg ds w := by
  unfold buildFromDocData
  simp only [List.mem_map, Prod.mk.injEq]
  constructor
  · rintro ⟨w2, hw2, rfl, rfl⟩
    exact ⟨hw2, rfl⟩
  · rintro ⟨hw, rfl⟩
    exact ⟨w, hw, rfl, rfl⟩

theorem mem_mkPostings {lg : Nat → Nat → ℚ} {N : Nat} {ds : List DocData}
    {w : String} {p : PostingRecord} :
    p ∈ mkPostings lg N ds w ↔
      ∃ d ∈ ds, w ∈ d.words ∧ p = postingOf lg N ds w d := by
  unfold mkPostings
  simp only [List.mem_filterMap]
  constructor
  · rintro ⟨d, hd, hp⟩
    by_cases hw : w ∈ d.words
    · rw [if_pos hw] at hp
      exact ⟨d, hd, hw, (Option.some_injective _ hp).symm⟩
    · rw [if_neg hw] at hp
      cases hp
  · rintro ⟨d, hd, hw, rfl⟩
    exact ⟨d, hd, by rw [if_pos hw]⟩

theorem mkPostings_length (lg : Nat → Nat → ℚ) (N : Nat) (ds : List DocData)
    (w : String) : (mkPostings lg N ds w).length = dfCount ds w := by
  unfold mkPostings dfCount
  rw [List.length_filterMap_eq_countP, ← List.countP_eq_length_filter]
  refine List.countP_congr ?_
  intro d _
  by_cases hw : w ∈ d.words
  · simp [hw]
  · simp [hw]

theorem filterMapPosting_docIds (w : String) (f : DocData → PostingRecord)
    (hf : ∀ d, (f d).doc_id = d.id) (l : List DocData) :
    (l.filterMap (fun d => if w ∈ d.words then some (f d) else none)).map
        (fun p => p.doc_id) =
      (l.filter (fun d => decide (w ∈ d.words))).map (fun d => d.id) := by
  induction l with
  | nil => simp
  | cons d rest ih =>
    by_cases hw : w ∈ d.words
    · simp only [List.filterMap_cons, if_pos hw, List.filter_cons,
        decide_eq_true_eq, hw, decide_True, if_pos, List.map_cons, hf d, ih]
    · simp only [List.filterMap_cons, if_neg hw, List.filter_cons,
        decide_eq_true_eq, hw, decide_False, Bool.false_eq_true, if_false, ih]

theorem mkPostings_docIds (lg : Nat → Nat → ℚ) (N : Nat) (ds : List DocData)
    (w : String) :
    (mkPostings lg N ds w).map (fun p => p.doc_id) =
      (ds.filter (fun d => decide (w ∈ d.words))).map (fun d => d.id) := by
  unfold mkPostings
  exact filterMapPosting_docIds w (postingOf lg N ds w) (fun d => rfl) ds

theorem nodup_mkPostings_docIds {lg : Nat → Nat → ℚ} {N : Nat}
    {ds : List DocData} (w : String)
    (hn : (ds.map (fun d => d.id)).Nodup) :
    ((mkPostings lg N ds w).map (fun p => p.doc_id)).Nodup := by
  rw [mkPostings_docIds]
  exact List.Nodup.sublist
    (List.Sublist.map _ (List.filter_sublist ds)) hn

theorem buildEntry_postings_perm (lg : Nat → Nat → ℚ) (ds : List DocData)
    (w : String) :
    (buildEntry lg ds w).postings.Perm (mkPostings lg ds.length ds w) :=
  List.mergeSort_perm _ postingLe

theorem buildEntry_sorted (lg : Nat → Nat → ℚ) (ds : List DocData)
    (w : String) :
    (buildEntry lg ds w).postings.Pairwise (fun p q => q.tf_idf ≤ p.tf_idf) := by
  have h := @List.sorted_mergeSort PostingRecord postingLe
    postingLe_trans postingLe_total (mkPostings lg ds.length ds w)
  exact h.imp (fun hab => by
    simpa only [postingLe, decide_eq_true_eq] using hab)

theorem buildEntry_length (lg : Nat → Nat → ℚ) (ds : List DocData)
    (w : String) :
    (buildEntry lg ds w).postings.length = dfCount ds w := by
  rw [(buildEntry_postings_perm lg ds w).length_eq, mkPostings_length]

theorem mem_buildEntry_postings {lg : Nat → Nat → ℚ} {ds : List DocData}
    {w : String} {p : PostingRecord} :
    p ∈ (buildEntry lg ds w).postings ↔
      ∃ d ∈ ds, w ∈ d.words ∧ p = postingOf lg ds.length ds w d := by
  rw [(buildEntry_postings_perm lg ds w).mem_iff, mem_mkPostings]

theorem nodup_buildEntry_docIds {lg : Nat → Nat → ℚ} {ds : List DocData}
    (w : String) (hn : (ds.map (fun d => d.id)).Nodup) :
    ((buildEntry lg ds w).postings.map (fun p => p.doc_id)).Nodup := by
  rw [(List.Perm.map _ (buildEntry_postings_perm lg ds w)).nodup_iff]
  exact nodup_mkPostings_docIds w hn

theorem findPosting_buildEntry {lg : Nat → Nat → ℚ} {ds : List DocData}
    {w : String} {d : DocData} (hn : (ds.map (fun d => d.id)).Nodup)
    (hd : d ∈ ds) (hw : w ∈ d.words) :
    findPosting (buildEntry lg ds w) d.id =
      some (postingOf lg ds.length ds w d) := by
  have hp : postingOf lg ds.length ds w d ∈ (buildEntry lg ds w).postings :=
    mem_buildEntry_postings.mpr ⟨d, hd, hw, rfl⟩
  have := find?_unique (fun p => p.doc_id) (nodup_buildEntry_docIds w hn) hp
  simpa [findPosting, postingOf] using this

theorem mem_postingDocs_buildEntry {lg : Nat → Nat → ℚ} {ds : List DocData}
    {w : String} {x : String} :
    x ∈ postingDocs (buildEntry lg ds w) ↔
      ∃ d ∈ ds, w ∈ d.words ∧ x = d.id := by
  unfold postingDocs
  simp only [List.mem_map, mem_buildEntry_postings]
  constructor
  · rintro ⟨p, ⟨d, hd, hw, rfl⟩, rfl⟩
    exact ⟨d, hd, hw, rfl⟩
  · rintro ⟨d, hd, hw, rfl⟩
    exact ⟨postingOf lg ds.length ds w d, ⟨d, hd, hw, rfl⟩, rfl⟩

theorem document_list_build {lg : Nat → Nat → ℚ} {ds : List DocData}
    {d : DocData} (hn : (ds.map (fun d => d.id)).Nodup) (hd : d ∈ ds) :
    assocFind d.id (buildFromDocData lg ds).document_list =
      some (recordOf d) := by
  have hmap : (buildFromDocData lg ds).document_list =
      ds.map (fun d => (d.id, recordOf d)) := rfl
  rw [hmap, assocFind_map d.id (fun d => d.id) recordOf ds,
    find?_unique (fun d => d.id) hn hd]
  rfl

theorem dfCount_pos {ds : List DocData} {d : DocData} {w : String}
    (hd : d ∈ ds) (hw : w ∈ d.words) : 0 < dfCount ds w := by
  unfold dfCount
  rw [List.length_pos]
  intro hc
  have : d ∈ ds.filter (fun d => decide (w ∈ d.words)) :=
    List.mem_filter.mpr ⟨hd, by simpa using hw⟩
  rw [hc] at this
  cases this

/-! ## Helper lemmas: tokenizer -/

theorem char_toNat_ofNat {n : Nat} (h : n.isValidChar) :
    (Char.ofNat n).toNat = n := by
  unfold Char.ofNat
  rw [dif_pos h]
  unfold Char.ofNatAux Char.toNat
  simp [UInt32.ofNat', UInt32.toNat]

theorem toLower_idem (c : Char) :
    Char.toLower (Char.toLower c) = Char.toLower c := by
  unfold Char.toLower
  by_cases h : c.toNat ≥ 65 ∧ c.toNat ≤ 90
  · rw [if_pos h]
    have hv : (c.toNat + 32).isValidChar := Or.inl (by omega)
    have ht : (Char.ofNat (c.toNat + 32)).toNat = c.toNat + 32 :=
      char_toNat_ofNat hv
    rw [if_neg (by omega :
      ¬((Char.ofNat (c.toNat + 32)).toNat ≥ 65 ∧
        (Char.ofNat (c.toNat + 32)).toNat ≤ 90))]
  · rw [if_neg h, if_neg h]

theorem toLowerStr_idem (s : String) :
    toLowerStr (toLowerStr s) = toLowerStr s := by
  unfold toLowerStr
  refine congrArg String.mk ?_
  rw [show (String.mk (s.data.map Char.toLower)).data
    = s.data.map Char.toLower from rfl, List.map_map]
  exact List.map_congr_left (fun c _ => toLower_idem c)

theorem keepToken_toLower {w t : String} (h : keepToken w = some t) :
    toLowerStr t = t := by
  unfold keepToken at h
  simp only at h
  split at h
  · exact (Option.some_injective _ h) ▸ toLowerStr_idem _
  · cases h

theorem mem_tokenizeText_toLower {text w : String}
    (h : w ∈ tokenizeText text) : toLowerStr w = w := by
  obtain ⟨raw, _, hraw⟩ := List.mem_filterMap.mp h
  exact keepToken_toLower hraw

theorem splitWsAux_append (xs ys : List Char) (acc : List Char) :
    splitWsAux (xs ++ ' ' :: ys) acc = splitWsAux xs acc ++ splitWsAux ys [] := by
  have hws : (' ' : Char).isWhitespace = true := by decide
  induction xs generalizing acc with
  | nil =>
    by_cases hacc : acc = []
    · simp [splitWsAux, hws, hacc]
    · simp [splitWsAux, hws, hacc]
  | cons c cs ih =>
    by_cases hcw : c.isWhitespace
    · by_cases hacc : acc = []
      · simp [splitWsAux, hcw, hacc, ih]
      · simp [splitWsAux, hcw, hacc, ih]
    · simp [splitWsAux, hcw, ih]

theorem splitWs_append (a b : String) :
    splitWs (a ++ " " ++ b) = splitWs a ++ splitWs b := by
  unfold splitWs
  rw [String.data_append, String.data_append,
    show (" " : String).data = [' '] from rfl, List.append_assoc,
    show ([' '] ++ b.data : List Char) = ' ' :: b.data from rfl,
    splitWsAux_append, List.map_append]

theorem tokenizeText_append (a b : String) :
    tokenizeText (a ++ " " ++ b) = tokenizeText a ++ tokenizeText b := by
  unfold tokenizeText
  rw [splitWs_append, List.filterMap_append]

/-! ## C4: posting positions are strictly increasing with length equal
to the term frequency -/

/-- C4: for every posting in every built index (both index builders
share `buildFromDocData` for their second pass), the positions list is
strictly increasing and its length equals the posting term frequency. -/
theorem posting_positions_invariant (lg : Nat → Nat → ℚ) (ds : List DocData)
    {w : String} {e : InvertedIndexEntry} {p : PostingRecord}
    (he : (w, e) ∈ (buildFromDocData lg ds).inverted_index)
    (hp : p ∈ e.postings) :
    p.positions.Pairwise (fun a b => a < b) ∧
      p.positions.length = p.term_frequency := by
  obtain ⟨hw, rfl⟩ := mem_inverted_index.mp he
  obtain ⟨d, hd, hwd, rfl⟩ := mem_buildEntry_postings.mp hp
  refine ⟨posAux_pairwise _ 0 _, ?_⟩
  simp only [postingOf, posAux_length]

unseal Rat.add Rat.mul Rat.inv Nat.gcd List.merge List.mergeSort in
theorem posting_positions_invariant_witness :
    (postingOf lgEx exDs.length exDs "cat"
        { id := "a1000", url := "a.html", words := ["cat", "dog"] }).positions.Pairwise
      (fun a b => a < b) ∧
    (postingOf lgEx exDs.length exDs "cat"
        { id := "a1000", url := "a.html", words := ["cat", "dog"] }).positions.length
      = (postingOf lgEx exDs.length exDs "cat"
        { id := "a1000", url := "a.html", words := ["cat", "dog"] }).term_frequency :=
  @posting_positions_invariant lgEx exDs "cat" (buildEntry lgEx exDs "cat")
    (postingOf lgEx exDs.length exDs "cat"
      { id := "a1000", url := "a.html", words := ["cat", "dog"] })
    (by decide) (by decide)

/-! ## C3: posting-list length equals DF; sort order and tie-break -/

/-- C3 (amended): in every built index each entry holds exactly its
document-frequency many postings, sorted by TF-IDF descending; equal
TF-IDF postings keep their pass-2 insertion order (the sort is stable),
which is not document-id order. -/
theorem posting_list_df_and_sorted (lg : Nat → Nat → ℚ) (ds : List DocData)
    {w : String} {e : InvertedIndexEntry}
    (he : (w, e) ∈ (buildFromDocData lg ds).inverted_index) :
    e.postings.length = e.document_frequency ∧
    e.postings.Pairwise (fun p q => q.tf_idf ≤ p.tf_idf) ∧
    (∀ p q : PostingRecord, p.tf_idf = q.tf_idf →
      [p, q].Sublist (mkPostings lg ds.length ds w) →
      [p, q].Sublist e.postings) := by
  obtain ⟨hw, rfl⟩ := mem_inverted_index.mp he
  refine ⟨?_, buildEntry_sorted lg ds w, ?_⟩
  · rw [buildEntry_length]
    rfl
  · intro p q hpq hsub
    have hpair : [p, q].Pairwise (fun a b => postingLe a b = true) := by
      simp [List.pairwise_cons, postingLe, hpq]
    exact List.sublist_mergeSort postingLe_trans postingLe_total hpair hsub

unseal Rat.add Rat.mul Rat.inv Nat.gcd List.merge List.mergeSort in
theorem posting_list_df_and_sorted_witness :
    (buildEntry lgEx oneDs "cat").postings.length
        = (buildEntry lgEx oneDs "cat").document_frequency ∧
    (buildEntry lgEx oneDs "cat").postings.Pairwise
        (fun p q => q.tf_idf ≤ p.tf_idf) ∧
    (∀ p q : PostingRecord, p.tf_idf = q.tf_idf →
      [p, q].Sublist (mkPostings lgEx oneDs.length oneDs "cat") →
      [p, q].Sublist (buildEntry lgEx oneDs "cat").postings) :=
  @posting_list_df_and_sorted lgEx oneDs "cat" (buildEntry lgEx oneDs "cat")
    (by decide)

/-! ## C1: the TF-IDF formula -/

/-- C1: for every term posting of a built index, the stored TF-IDF
equals (term-frequency / document-length) times the natural logarithm
of (total documents / document frequency), under the hypothesis that
the embedded float logarithm `lg` agrees with the real logarithm at the
arguments the posting uses; and `calculate_tf_idf` returns 0 whenever
the term frequency or the document frequency is 0. -/
theorem tf_idf_posting_formula (lg : Nat → Nat → ℚ) (ds : List DocData)
    (hn : (ds.map (fun d => d.id)).Nodup)
    {w : String} {e : InvertedIndexEntry} {p : PostingRecord}
    (he : (w, e) ∈ (buildFromDocData lg ds).inverted_index)
    (hp : p ∈ e.postings)
    (hlg : ((lg (buildFromDocData lg ds).total_documents
        e.document_frequency : ℚ) : ℝ)
      = Real.log (((buildFromDocData lg ds).total_documents : ℝ) /
          (e.document_frequency : ℝ))) :
    (∃ rec : DocumentRecord,
      assocFind p.doc_id (buildFromDocData lg ds).document_list = some rec ∧
      ((p.tf_idf : ℚ) : ℝ) = (p.term_frequency : ℝ) / (rec.length : ℝ) *
        Real.log (((buildFromDocData lg ds).total_documents : ℝ) /
          (e.document_frequency : ℝ))) ∧
    (∀ (lg2 : Nat → Nat → ℚ) (N tf len df : Nat), tf = 0 ∨ df = 0 →
      calculate_tf_idf lg2 N tf len df = 0) := by
  obtain ⟨hw, rfl⟩ := mem_inverted_index.mp he
  obtain ⟨d, hd, hwd, rfl⟩ := mem_buildEntry_postings.mp hp
  constructor
  · refine ⟨recordOf d, document_list_build hn hd, ?_⟩
    have hlg2 : ((lg ds.length (dfCount ds w) : ℚ) : ℝ)
        = Real.log ((ds.length : ℝ) / (dfCount ds w : ℝ)) := hlg
    have h1 : d.words.count w ≠ 0 := by
      intro h
      rw [List.count_eq_zero] at h
      exact h hwd
    have h2 : dfCount ds w ≠ 0 := (dfCount_pos hd hwd).ne'
    show ((calculate_tf_idf lg ds.length (d.words.count w) d.words.length
        (dfCount ds w) : ℚ) : ℝ)
      = ((d.words.count w : Nat) : ℝ) / ((d.words.length : Nat) : ℝ) *
        Real.log ((ds.length : ℝ) / (dfCount ds w : ℝ))
    unfold calculate_tf_idf
    rw [if_neg (by tauto : ¬(d.words.count w = 0 ∨ dfCount ds w = 0))]
    push_cast
    rw [hlg2]
  · intro lg2 N tf len df h
    unfold calculate_tf_idf
    rw [if_pos h]

unseal Rat.add Rat.mul Rat.inv Nat.gcd List.merge List.mergeSort in
theorem tf_idf_posting_formula_witness :
    (∃ rec : DocumentRecord,
      assocFind (postingOf lgEx oneDs.length oneDs "cat"
          { id := "a1000", url := "a.html", words := ["cat"] }).doc_id
          (buildFromDocData lgEx oneDs).document_list = some rec ∧
      (((postingOf lgEx oneDs.length oneDs "cat"
          { id := "a1000", url := "a.html", words := ["cat"] }).tf_idf : ℚ) : ℝ)
        = ((postingOf lgEx oneDs.length oneDs "cat"
            { id := "a1000", url := "a.html", words := ["cat"] }).term_frequency : ℝ)
          / (rec.length : ℝ) *
          Real.log (((buildFromDocData lgEx oneDs).total_documents : ℝ) /
            ((buildEntry lgEx oneDs "cat").document_frequency : ℝ))) ∧
    (∀ (lg2 : Nat → Nat → ℚ) (N tf len df : Nat), tf = 0 ∨ df = 0 →
      calculate_tf_idf lg2 N tf len df = 0) :=
  @tf_idf_posting_formula lgEx oneDs (by decide) "cat"
    (buildEntry lgEx oneDs "cat")
    (postingOf lgEx oneDs.length oneDs "cat"
      { id := "a1000", url := "a.html", words := ["cat"] })
    (by decide) (by decide)
    (by
      have h1 : (buildFromDocData lgEx oneDs).total_documents = 1 := by decide
      have h2 : (buildEntry lgEx oneDs "cat").document_frequency = 1 := by
        decide
      rw [h1, h2]
      norm_num [lgEx])

/-! ## C6: anchor-text doubling -/

/-- C6: when a document is indexed with a non-empty anchor-text list,
the token stream is the body tokens followed by exactly two copies of
the tokens of the space-joined anchor text; every term frequency is the
body count plus twice the anchor count; and the positional map is the
body positions followed by the anchor-region positions shifted past the
body token count, so each anchor-derived position is at least the
body-only token count. -/
theorem anchor_text_doubling (html : String) (anchor_texts : List String)
    (h : anchor_texts ≠ []) :
    (extract_words_with_positions_and_anchors html anchor_texts).1
      = tokenizeText (getText html)
        ++ tokenizeText (String.intercalate " " anchor_texts)
        ++ tokenizeText (String.intercalate " " anchor_texts) ∧
    (∀ w : String,
      ((extract_words_with_positions_and_anchors html anchor_texts).1).count w
        = (tokenizeText (getText html)).count w
          + 2 * (tokenizeText (String.intercalate " " anchor_texts)).count w) ∧
    (∀ w : String,
      (extract_words_with_positions_and_anchors html anchor_texts).2 w
        = posAux (tokenizeText (getText html)) 0 w
          ++ (posAux (tokenizeText (String.intercalate " " anchor_texts)
               ++ tokenizeText (String.intercalate " " anchor_texts)) 0 w).map
            (fun p => p + (tokenizeText (getText html)).length)) := by
  have hne : ¬ anchor_texts.isEmpty := by
    cases anchor_texts with
    | nil => exact absurd rfl h
    | cons a rest => simp
  have haug : augmentText (getText html) anchor_texts
      = (getText html ++ " " ++ String.intercalate " " anchor_texts)
        ++ " " ++ String.intercalate " " anchor_texts := by
    unfold augmentText
    rw [if_neg hne]
  have htok : tokenizeText (augmentText (getText html) anchor_texts)
      = tokenizeText (getText html)
        ++ tokenizeText (String.intercalate " " anchor_texts)
        ++ tokenizeText (String.intercalate " " anchor_texts) := by
    rw [haug, tokenizeText_append, tokenizeText_append]
  refine ⟨htok, fun w => ?_, fun w => ?_⟩
  · show (tokenizeText (augmentText (getText html) anchor_texts)).count w = _
    rw [htok, List.count_append, List.count_append]
    omega
  · show posAux (tokenizeText (augmentText (getText html) anchor_texts)) 0 w = _
    rw [htok, List.append_assoc, posAux_append]
    simp only [Nat.zero_add]
    rw [posAux_eq_map (tokenizeText (String.intercalate " " anchor_texts)
      ++ tokenizeText (String.intercalate " " anchor_texts))
      ((tokenizeText (getText html)).length) w]

unseal Rat.add Rat.mul Rat.inv Nat.gcd List.merge List.mergeSort in
theorem anchor_text_doubling_witness :
    (extract_words_with_positions_and_anchors "<p>alpha</p>" ["beta gamma"]).1
      = tokenizeText (getText "<p>alpha</p>")
        ++ tokenizeText (String.intercalate " " ["beta gamma"])
        ++ tokenizeText (String.intercalate " " ["beta gamma"]) ∧
    (∀ w : String,
      ((extract_words_with_positions_and_anchors "<p>alpha</p>"
          ["beta gamma"]).1).count w
        = (tokenizeText (getText "<p>alpha</p>")).count w
          + 2 * (tokenizeText (String.intercalate " " ["beta gamma"])).count w) ∧
    (∀ w : String,
      (extract_words_with_positions_and_anchors "<p>alpha</p>"
          ["beta gamma"]).2 w
        = posAux (tokenizeText (getText "<p>alpha</p>")) 0 w
          ++ (posAux (tokenizeText (String.intercalate " " ["beta gamma"])
               ++ tokenizeText (String.intercalate " " ["beta gamma"])) 0 w).map
            (fun p => p + (tokenizeText (getText "<p>alpha</p>")).length)) :=
  anchor_text_doubling "<p>alpha</p>" ["beta gamma"] (by decide)

/-! ## C7: queries with no extractable tokens -/

/-- C7: a query with no extractable tokens (the empty vector plan or a
whitespace-only phrase) returns an empty result list and raises no
failure; but the code leaves `last_total_count` unchanged instead of
setting it to 0, as the run below from a state with count 2 shows. -/
theorem no_token_query_keeps_previous_count :
    processParsedQuery sqrtEx exIdx (QueryPlan.vector []) 2 = ([], 2) ∧
    processParsedQuery sqrtEx exIdx (QueryPlan.phrase []) 2 = ([], 2) :=
  ⟨rfl, rfl⟩

/-! ## C8: archive entry filters -/

/-- C8 (amended): the spider cache filter keeps exactly the entries
whose name ends, case-sensitively, in `.html` or `.htm` and does not
start with `__MACOSX`; the indexer zip filter keeps exactly the entries
whose name ends, case-sensitively, in `.html`, with no `__MACOSX`
exclusion. -/
theorem archive_entry_filters (names : List String) (f : String) :
    (f ∈ spiderHtmlEntries names ↔ f ∈ names ∧
      ((strEndsWith f ".html" || strEndsWith f ".htm")
        && !(strStartsWith f "__MACOSX")) = true) ∧
    (f ∈ zipIndexCandidates names ↔ f ∈ names ∧ strEndsWith f ".html" = true) := by
  unfold spiderHtmlEntries zipIndexCandidates
  constructor
  · exact List.mem_filter
  · exact List.mem_filter

/-- C8 counterexample: `rhf/INDEX.HTML` satisfies the case-insensitive
candidate predicate of the claim but neither source filter accepts it;
`__MACOSX/x.html` is excluded by the claim but accepted by the indexer
filter; `a.htm` is a claim candidate but the indexer filter rejects it. -/
theorem entry_filter_counterexample :
    claimedHtmlEntry "rhf/INDEX.HTML" = true ∧
    spiderHtmlEntries ["rhf/INDEX.HTML"] = [] ∧
    zipIndexCandidates ["rhf/INDEX.HTML"] = [] ∧
    claimedHtmlEntry "__MACOSX/x.html" = false ∧
    zipIndexCandidates ["__MACOSX/x.html"] = ["__MACOSX/x.html"] ∧
    claimedHtmlEntry "a.htm" = true ∧
    zipIndexCandidates ["a.htm"] = [] := by
  decide

/-! ## C9: the all-documents term in the two-document corpus -/

unseal Rat.add Rat.mul Rat.inv Nat.gcd List.merge List.mergeSort in
/-- C9 counterexample: on the corpus `a.html = <p>cat dog</p>`,
`b.html = <p>dog bird</p>` the vector query `dog` does not return the
two documents; the result list is empty. -/
theorem vector_query_dog_not_both :
    ¬ ((vector_space_search sqrtEx exIdx ["dog"] 0).1.map (fun r => r.doc_id)
        = ["a1000", "b2000"]) := by
  decide

unseal Rat.add Rat.mul Rat.inv Nat.gcd List.merge List.mergeSort in
/-- C9 (amended): `dog` occurs in both documents, so DF = N = 2, its
IDF is exactly 0 (the float `log(1.0)` is exactly `0.0`, matching the
real logarithm as the final conjunct states), both postings carry
TF-IDF 0, and the vector scorer discards zero-score documents: the
query returns an empty list with total count 0. -/
theorem vector_query_dog_empty :
    vector_space_search sqrtEx exIdx ["dog"] 0 = ([], 0) ∧
    tfIdfOf exIdx "dog" "a1000" = 0 ∧
    tfIdfOf exIdx "dog" "b2000" = 0 ∧
    (lookupEntry exIdx "dog").map (fun e => e.document_frequency) = some 2 ∧
    exIdx.total_documents = 2 ∧
    ((lgEx 2 2 : ℚ) : ℝ) = Real.log ((2 : ℝ) / (2 : ℝ)) := by
  refine ⟨by decide, by decide, by decide, by decide, by decide, ?_⟩
  norm_num [lgEx]

/-! ## Helper lemmas: anchor inbox recording (web_spider.py) -/

theorem assocFind_isSome_iff {α : Type} {k : String} {m : List (String × α)} :
    (assocFind k m).isSome ↔ k ∈ m.map Prod.fst := by
  induction m with
  | nil => simp [assocFind]
  | cons kv rest ih =>
    by_cases hk : kv.1 = k
    · simp [assocFind, hk]
    · simp [assocFind, hk, ih, Ne.symm hk]

theorem assocFind_update {α : Type} (k k0 : String) (f : α → α)
    (m : List (String × α)) :
    assocFind k (m.map (fun kv => if kv.1 = k0 then (kv.1, f kv.2) else kv))
      = if k = k0 then (assocFind k m).map f else assocFind k m := by
  induction m with
  | nil => by_cases h : k = k0 <;> simp [assocFind, h]
  | cons kv rest ih =>
    by_cases h1 : kv.1 = k0
    · by_cases h2 : kv.1 = k
      · have : k = k0 := h2 ▸ h1
        simp [assocFind, h1, h2, this]
      · simp only [List.map_cons, if_pos h1, assocFind, if_neg h2, ih]
    · by_cases h2 : kv.1 = k
      · have : ¬ k = k0 := fun hc => h1 (h2.trans hc)
        simp [assocFind, h1, h2, this]
      · simp only [List.map_cons, if_neg h1, assocFind, if_neg h2, ih]

theorem assocFind_append {α : Type} (k : String) (m1 m2 : List (String × α)) :
    assocFind k (m1 ++ m2)
      = match assocFind k m1 with
        | some v => some v
        | none => assocFind k m2 := by
  induction m1 with
  | nil => simp [assocFind]
  | cons kv rest ih =>
    by_cases hk : kv.1 = k
    · simp [assocFind, hk]
    · simp [assocFind, hk, ih]

theorem recordLink_lookup (m : List (String × List String))
    (link : String × String) (t : String) :
    assocFind t (recordLink m link)
      = if t = link.1 then
          some ((assocFind t m).getD []
            ++ (if link.2 = "" then [] else [link.2]))
        else assocFind t m := by
  unfold recordLink
  by_cases hsome : (assocFind link.1 m).isSome
  · rw [if_pos hsome]
    by_cases h2 : link.2 = ""
    · rw [if_pos h2]
      by_cases ht : t = link.1
      · subst ht
        obtain ⟨v, hv⟩ := Option.isSome_iff_exists.mp hsome
        simp [hv, h2]
      · rw [if_neg ht]
    · rw [if_neg h2, assocFind_update t link.1 (fun l => l ++ [link.2]) m]
      by_cases ht : t = link.1
      · subst ht
        obtain ⟨v, hv⟩ := Option.isSome_iff_exists.mp hsome
        simp [hv, h2]
      · rw [if_neg ht, if_neg ht]
  · rw [if_neg hsome]
    have hnone : assocFind link.1 m = none :=
      Option.not_isSome_iff_eq_none.mp hsome
    by_cases h2 : link.2 = ""
    · rw [if_pos h2, assocFind_append]
      by_cases ht : t = link.1
      · subst ht
        simp [hnone, assocFind, h2]
      · rw [if_neg ht]
        by_cases hv : (assocFind t m).isSome
        · obtain ⟨v, hvv⟩ := Option.isSome_iff_exists.mp hv
          simp [hvv]
        · have h0 : assocFind t m = none :=
            Option.not_isSome_iff_eq_none.mp hv
          simp [h0, assocFind, Ne.symm ht]
    · rw [if_neg h2,
        assocFind_update t link.1 (fun l => l ++ [link.2]) (m ++ [(link.1, [])]),
        assocFind_append]
      by_cases ht : t = link.1
      · subst ht
        simp [hnone, assocFind, h2]
      · rw [if_neg ht, if_neg ht]
        by_cases hv : (assocFind t m).isSome
        · obtain ⟨v, hvv⟩ := Option.isSome_iff_exists.mp hv
          simp [hvv]
        · have h0 : assocFind t m = none :=
            Option.not_isSome_iff_eq_none.mp hv
          simp [h0, assocFind, Ne.symm ht]

theorem anchorAppend_cons (t : String) (l : String × String)
    (ls : List (String × String)) :
    anchorAppend t (l :: ls)
      = (if l.1 = t then (if l.2 = "" then [] else [l.2]) else [])
        ++ anchorAppend t ls := by
  unfold anchorAppend
  by_cases h1 : l.1 = t
  · by_cases h2 : l.2 = ""
    · simp [List.filter_cons, h1, h2]
    · simp [List.filter_cons, h1, h2]
  · simp [List.filter_cons, h1]

theorem recordLinks_lookup (links : List (String × String))
    (m : List (String × List String)) (t : String) :
    assocFind t (recordLinks m links)
      = if t ∈ links.map Prod.fst ∨ (assocFind t m).isSome
        then some ((assocFind t m).getD [] ++ anchorAppend t links)
        else none := by
  induction links generalizing m with
  | nil =>
    by_cases hv : (assocFind t m).isSome
    · obtain ⟨v, hvv⟩ := Option.isSome_iff_exists.mp hv
      simp [recordLinks, anchorAppend, hvv]
    · have : assocFind t m = none := Option.not_isSome_iff_eq_none.mp hv
      simp [recordLinks, anchorAppend, this]
  | cons l ls ih =>
    have hstep : recordLinks m (l :: ls) = recordLinks (recordLink m l) ls := rfl
    rw [hstep, ih (recordLink m l), recordLink_lookup m l t, anchorAppend_cons]
    by_cases ht : t = l.1
    · subst ht
      simp only [List.map_cons, List.mem_cons, eq_self_iff_true, true_or,
        if_true, Option.isSome_some, or_true, Option.getD_some,
        List.append_assoc]
    · have hne2 : ¬ l.1 = t := fun hc => ht hc.symm
      rw [if_neg ht]
      have hiff : (t ∈ (l :: ls).map Prod.fst ∨ (assocFind t m).isSome)
          ↔ (t ∈ ls.map Prod.fst ∨ (assocFind t m).isSome) := by
        simp only [List.map_cons, List.mem_cons]
        constructor
        · rintro ((h | h) | h)
          · exact absurd h ht
          · exact Or.inl h
          · exact Or.inr h
        · rintro (h | h)
          · exact Or.inl (Or.inr h)
          · exact Or.inr h
      by_cases hcond : t ∈ ls.map Prod.fst ∨ (assocFind t m).isSome
      · rw [if_pos hcond, if_pos (hiff.mpr hcond), if_neg hne2]
        rw [List.nil_append]
      · rw [if_neg hcond, if_neg (fun hc => hcond (hiff.mp hc))]

/-! ## C10: every link target gets an anchor-inbox key -/

/-- C10: after recording any batch of observed links over any prior
anchor map, every link target owns a key in the anchor map, even a
target seen only with empty anchor text; the list stored under a target
is its previous list extended by exactly the non-empty anchor strings
aimed at it; and the `urls_with_anchor_texts` statistic counts the keys
of the map, hence every linked-to target, including those whose list is
empty. -/
theorem anchor_inbox_keys_and_statistic (m : List (String × List String))
    (links : List (String × String)) :
    (∀ t ∈ links.map Prod.fst, t ∈ (recordLinks m links).map Prod.fst) ∧
    (∀ t, assocFind t (recordLinks m links)
      = if t ∈ links.map Prod.fst ∨ (assocFind t m).isSome
        then some ((assocFind t m).getD [] ++ anchorAppend t links)
        else none) ∧
    urls_with_anchor_texts (recordLinks m links)
      = ((recordLinks m links).map Prod.fst).length := by
  refine ⟨?_, fun t => recordLinks_lookup links m t, ?_⟩
  · intro t htl
    rw [← assocFind_isSome_iff, recordLinks_lookup links m t,
      if_pos (Or.inl htl)]
    rfl
  · unfold urls_with_anchor_texts
    rw [List.length_map]

/-! ## C2: total count and top-K limiting -/

theorem one_le_vectorQlsq {terms : List String} (ht : terms ≠ []) :
    (1 : ℚ) ≤ vectorQlsq terms := by
  obtain ⟨t, ht0⟩ := List.exists_mem_of_ne_nil terms ht
  have hc : terms.count t ≠ 0 := by
    intro h
    rw [List.count_eq_zero] at h
    exact h ht0
  have h1 : (1 : ℚ) ≤ (terms.count t : ℚ) := by
    exact_mod_cast Nat.one_le_iff_ne_zero.mpr hc
  have hnn : ∀ x ∈ (dedupFirst terms).map (fun t =>
      ((terms.count t : ℚ)) * ((terms.count t : ℚ))), 0 ≤ x := by
    intro x hx
    obtain ⟨t2, _, rfl⟩ := List.mem_map.mp hx
    exact mul_self_nonneg _
  have hmem : ((terms.count t : ℚ)) * ((terms.count t : ℚ))
      ∈ (dedupFirst terms).map (fun t =>
        ((terms.count t : ℚ)) * ((terms.count t : ℚ))) :=
    List.mem_map_of_mem _ (mem_dedupFirst.mpr ht0)
  calc (1 : ℚ) ≤ (terms.count t : ℚ) * (terms.count t : ℚ) := by nlinarith
    _ ≤ vectorQlsq terms := List.single_le_sum hnn _ hmem

theorem limitSpec_limitResults (a : List QueryResult) :
    limitSpec (limitResults a, a.length) a :=
  ⟨rfl, limitResults_sorted _, fun _ => limitResults_perm_of_le (by omega),
    fun h => ⟨limitResults_length_of_gt h, limitResults_subset,
      fun x hx hnx => limitResults_top_of_gt h hx hnx⟩⟩

/-- C2 (amended): every path that reaches result assembly sets
`last_total_count` to the full match count and applies the top-K cap:
`boolean_or_search` always; `vector_space_search` whenever the term
list is non-empty and the square root of a positive float is non-zero;
`boolean_and_search` and `phrase_search` whenever in addition every
term is in the dictionary; `boolean_not_search` whenever the include
term is in the dictionary. On each such path, relative to the method's
assembled match list, `last_total_count` becomes the match count; when
that count exceeds 100 the returned list holds exactly 100 results,
each an assembled match, sorted by score descending, and no dropped
match scores above a returned one; otherwise the returned list is a
permutation of all matches, sorted by score descending. -/
theorem top_k_limiting (idx : BuiltIndex) (terms : List String) (prev : Nat)
    (sqrtF : ℚ → ℚ) (inc exc : String) (ie : InvertedIndexEntry)
    (ht : terms ≠ []) (hs : ∀ q : ℚ, 1 ≤ q → sqrtF q ≠ 0)
    (hie : lookupEntry idx inc = some ie) :
    limitSpec (boolean_or_search idx terms prev) (orAssembled idx terms) ∧
    limitSpec (vector_space_search sqrtF idx terms prev)
      (vectorAssembled sqrtF idx terms (sqrtF (vectorQlsq terms))) ∧
    (terms.all (fun t => (lookupEntry idx t).isSome) = true →
      limitSpec (boolean_and_search idx terms prev) (andAssembled idx terms)) ∧
    limitSpec (boolean_not_search idx inc exc prev) (notAssembled idx ie exc) ∧
    (terms.all (fun t => (lookupEntry idx t).isSome) = true →
      limitSpec (phrase_search idx terms prev) (phraseAssembled idx terms)) := by
  refine ⟨limitSpec_limitResults _, ?_, ?_, ?_, ?_⟩
  · have hvv : vector_space_search sqrtF idx terms prev
        = (limitResults
            (vectorAssembled sqrtF idx terms (sqrtF (vectorQlsq terms))),
          (vectorAssembled sqrtF idx terms (sqrtF (vectorQlsq terms))).length) := by
      unfold vector_space_search
      rw [if_neg ht, if_neg (hs _ (one_le_vectorQlsq ht))]
    rw [hvv]
    exact limitSpec_limitResults _
  · intro hall
    have hva : boolean_and_search idx terms prev
        = (limitResults (andAssembled idx terms),
           (andAssembled idx terms).length) := by
      unfold boolean_and_search
      rw [if_neg ht, if_pos hall]
    rw [hva]
    exact limitSpec_limitResults _
  · have hvn : boolean_not_search idx inc exc prev
        = (limitResults (notAssembled idx ie exc),
           (notAssembled idx ie exc).length) := by
      unfold boolean_not_search
      rw [hie]
    rw [hvn]
    exact limitSpec_limitResults _
  · intro hall
    have hvp : phrase_search idx terms prev
        = (limitResults (phraseAssembled idx terms),
           (phraseAssembled idx terms).length) := by
      unfold phrase_search
      rw [if_neg ht, if_pos hall]
    rw [hvp]
    exact limitSpec_limitResults _

unseal Rat.add Rat.mul Rat.inv Nat.gcd List.merge List.mergeSort in
theorem top_k_limiting_witness :
    limitSpec (boolean_or_search exIdx ["dog"] 0) (orAssembled exIdx ["dog"]) ∧
    limitSpec (vector_space_search sqrtEx exIdx ["dog"] 0)
      (vectorAssembled sqrtEx exIdx ["dog"] (sqrtEx (vectorQlsq ["dog"]))) ∧
    ((["dog"] : List String).all (fun t => (lookupEntry exIdx t).isSome) = true →
      limitSpec (boolean_and_search exIdx ["dog"] 0)
        (andAssembled exIdx ["dog"])) ∧
    limitSpec (boolean_not_search exIdx "cat" "dog" 0)
      (notAssembled exIdx (buildEntry lgEx exDs "cat") "dog") ∧
    ((["dog"] : List String).all (fun t => (lookupEntry exIdx t).isSome) = true →
      limitSpec (phrase_search exIdx ["dog"] 0)
        (phraseAssembled exIdx ["dog"])) :=
  top_k_limiting exIdx ["dog"] 0 sqrtEx "cat" "dog" (buildEntry lgEx exDs "cat")
    (by decide)
    (fun q hq hc => by
      rw [show sqrtEx q = q from rfl] at hc
      rw [hc] at hq
      norm_num at hq)
    rfl

/-- C2 counterexample: on the two-document corpus, an AND query with
the unknown term `zzxxqq` has full match count 0, but the search
returns before the counting line: from a state with `last_total_count`
1 it returns the empty list and leaves the count at 1, not 0. -/
theorem and_unknown_term_keeps_previous_count :
    boolean_and_search exIdx ["cat", "zzxxqq"] 1 = ([], 1) ∧
    (boolean_and_search exIdx ["cat", "zzxxqq"] 1).2 ≠ 0 := by
  constructor
  · rfl
  · decide

/-! ## C5: phrase matching -/

theorem getD_mem_of_lt {l : List String} {i : Nat} (h : i < l.length) :
    l.getD i "" ∈ l := by
  rw [List.getD_eq_getElem?_getD]
  simp [List.getElem?_eq_getElem h]

theorem getD_getElem? {l : List String} {i : Nat} (h : i < l.length) :
    l[i]? = some (l.getD i "") := by
  rw [List.getD_eq_getElem?_getD]
  simp [List.getElem?_eq_getElem h]

theorem mem_commonDocs {idx : BuiltIndex} {t0 : String} {rest : List String}
    {x : String} :
    x ∈ commonDocs idx (t0 :: rest) ↔
      (∃ e0, lookupEntry idx t0 = some e0 ∧ x ∈ postingDocs e0) ∧
      (∀ t ∈ rest, ∃ e, lookupEntry idx t = some e ∧ x ∈ postingDocs e) := by
  have hc : commonDocs idx (t0 :: rest)
      = (match lookupEntry idx t0 with
        | none => ([] : List String)
        | some e0 => (postingDocs e0).filter (fun d => rest.all (fun t =>
            match lookupEntry idx t with
            | some e => (postingDocs e).contains d
            | none => false))) := rfl
  rcases h0 : lookupEntry idx t0 with _ | e0
  · rw [hc, h0]
    show x ∈ ([] : List String) ↔ _
    simp [h0]
  · rw [hc, h0]
    show x ∈ (postingDocs e0).filter (fun d => rest.all (fun t =>
        match lookupEntry idx t with
        | some e => (postingDocs e).contains d
        | none => false)) ↔ _
    simp only [List.mem_filter, h0, Option.some.injEq]
    constructor
    · rintro ⟨hx, hall⟩
      refine ⟨⟨e0, rfl, hx⟩, fun t htr => ?_⟩
      have h1 := List.all_eq_true.mp hall t htr
      rcases he : lookupEntry idx t with _ | e
      · rw [he] at h1
        have h1b : False := by
          have h1c : false = true := h1
          cases h1c
        cases h1b
      · rw [he] at h1
        have h1b : (postingDocs e).contains x = true := h1
        exact ⟨e, rfl, by simpa using h1b⟩
    · rintro ⟨⟨e0b, heq, hx⟩, hall⟩
      refine ⟨heq ▸ hx, List.all_eq_true.mpr fun t htr => ?_⟩
      obtain ⟨e, he, hxe⟩ := hall t htr
      rw [he]
      show (postingDocs e).contains x = true
      simpa using hxe

theorem positionsOf_build {lg : Nat → Nat → ℚ} {ds : List DocData}
    (hn : (ds.map (fun d => d.id)).Nodup) {t : String} {d : DocData}
    (hd : d ∈ ds) (hw : t ∈ d.words) (hlow : toLowerStr t = t) :
    positionsOf (buildFromDocData lg ds) t d.id = posAux d.words 0 t := by
  unfold positionsOf
  rw [lookupEntry_build lg ds hlow, if_pos (mem_indexVocab.mpr ⟨d, hd, hw⟩)]
  show (match findPosting (buildEntry lg ds t) d.id with
    | some p => p.positions
    | none => []) = posAux d.words 0 t
  rw [findPosting_buildEntry hn hd hw]
  rfl

theorem mem_phraseAssembled_docIds {idx : BuiltIndex} {terms : List String}
    {x : String} :
    x ∈ (phraseAssembled idx terms).map (fun r => r.doc_id) ↔
      x ∈ commonDocs idx terms ∧ phraseCheck idx terms x = true := by
  unfold phraseAssembled
  constructor
  · intro hx
    obtain ⟨r, hr, rfl⟩ := List.mem_map.mp hx
    obtain ⟨dc, hdc, hif⟩ := List.mem_filterMap.mp hr
    by_cases hchk : phraseCheck idx terms dc
    · rw [if_pos hchk] at hif
      obtain rfl := Option.some_injective _ hif
      exact ⟨hdc, hchk⟩
    · rw [if_neg hchk] at hif
      cases hif
  · rintro ⟨hx, hchk⟩
    exact List.mem_map.mpr
      ⟨_, List.mem_filterMap.mpr ⟨x, hx, by rw [if_pos hchk]⟩, rfl⟩

/-- C5 (amended): over any built index whose document ids are distinct
and any phrase whose tokens are lowercase-fixed (parsed phrase tokens
are lowercased), (1) a document is a phrase match exactly when it holds
every phrase token and some position p0 of the first token has p0+i
among the positions of token i for every later token i; (2) a document
containing the exact consecutive token sequence is a phrase match; and
(3) whenever at most 100 documents match, every match is in the list
`phrase_search` returns (with more than 100 matches the top-K cap can
drop a match, which is the counterexample below). -/
theorem phrase_match_characterization (lg : Nat → Nat → ℚ)
    (ds : List DocData) (prev : Nat) (terms : List String)
    (hn : (ds.map (fun d => d.id)).Nodup)
    (ht : terms ≠ [])
    (hlow : ∀ t ∈ terms, toLowerStr t = t) :
    (∀ dd ∈ ds,
      (dd.id ∈ (phraseAssembled (buildFromDocData lg ds) terms).map
          (fun r => r.doc_id)
        ↔ (∀ t ∈ terms, t ∈ dd.words) ∧
          ∃ p0 ∈ posAux dd.words 0 (terms.headD ""),
            ∀ i < terms.length - 1,
              (p0 + i + 1) ∈ posAux dd.words 0 (terms.getD (i + 1) ""))) ∧
    (∀ dd ∈ ds,
      (∃ p, ∀ i < terms.length, dd.words[p + i]? = some (terms.getD i "")) →
      dd.id ∈ (phraseAssembled (buildFromDocData lg ds) terms).map
        (fun r => r.doc_id)) ∧
    (∀ x ∈ (phraseAssembled (buildFromDocData lg ds) terms).map
        (fun r => r.doc_id),
      (phraseAssembled (buildFromDocData lg ds) terms).length ≤ 100 →
      x ∈ (phrase_search (buildFromDocData lg ds) terms prev).1.map
        (fun r => r.doc_id)) := by
  cases terms with
  | nil => exact absurd rfl ht
  | cons t0 rest =>
  have hchar : ∀ dd ∈ ds,
      (dd.id ∈ (phraseAssembled (buildFromDocData lg ds) (t0 :: rest)).map
          (fun r => r.doc_id)
        ↔ (∀ t ∈ t0 :: rest, t ∈ dd.words) ∧
          ∃ p0 ∈ posAux dd.words 0 ((t0 :: rest).headD ""),
            ∀ i < (t0 :: rest).length - 1,
              (p0 + i + 1) ∈ posAux dd.words 0 ((t0 :: rest).getD (i + 1) "")) := by
    intro dd hdd
    rw [mem_phraseAssembled_docIds, mem_commonDocs]
    simp only [List.headD_cons, List.length_cons, Nat.add_sub_cancel,
      List.getD_cons_succ]
    constructor
    · rintro ⟨⟨⟨e0, he0, hx0⟩, hall⟩, hchk⟩
      have hvt0 : toLowerStr t0 = t0 := hlow t0 (List.mem_cons_self _ _)
      have ht0w : t0 ∈ dd.words := by
        rw [lookupEntry_build lg ds hvt0] at he0
        by_cases hv : t0 ∈ indexVocab ds
        · rw [if_pos hv] at he0
          obtain rfl := Option.some_injective _ he0.symm
          obtain ⟨d2, hd2, hw2, hid⟩ := mem_postingDocs_buildEntry.mp hx0
          have : d2 = dd := nodup_key_inj (fun d => d.id) hn hd2 hdd hid.symm
          exact this ▸ hw2
        · rw [if_neg hv] at he0
          cases he0
      have hrw : ∀ t ∈ rest, t ∈ dd.words := by
        intro t htr
        obtain ⟨e, he, hxe⟩ := hall t htr
        have hvt : toLowerStr t = t := hlow t (List.mem_cons_of_mem _ htr)
        rw [lookupEntry_build lg ds hvt] at he
        by_cases hv : t ∈ indexVocab ds
        · rw [if_pos hv] at he
          obtain rfl := Option.some_injective _ he.symm
          obtain ⟨d2, hd2, hw2, hid⟩ := mem_postingDocs_buildEntry.mp hxe
          have : d2 = dd := nodup_key_inj (fun d => d.id) hn hd2 hdd hid.symm
          exact this ▸ hw2
        · rw [if_neg hv] at he
          cases he
      have hmemall : ∀ t ∈ t0 :: rest, t ∈ dd.words := by
        intro t htc
        rcases List.mem_cons.mp htc with rfl | htr
        · exact ht0w
        · exact hrw t htr
      refine ⟨hmemall, ?_⟩
      have hchk2 : ((positionsOf (buildFromDocData lg ds) t0 dd.id).any
          (fun p0 => (List.range rest.length).all (fun i =>
            (positionsOf (buildFromDocData lg ds) (rest.getD i "")
              dd.id).contains (p0 + i + 1)))) = true := hchk
      rw [positionsOf_build hn hdd ht0w hvt0] at hchk2
      obtain ⟨p0, hp0, hrun⟩ := List.any_eq_true.mp hchk2
      refine ⟨p0, hp0, fun i hi => ?_⟩
      have h2 := List.all_eq_true.mp hrun i (List.mem_range.mpr hi)
      have hgm : rest.getD i "" ∈ rest := getD_mem_of_lt hi
      rw [positionsOf_build hn hdd (hrw _ hgm)
        (hlow _ (List.mem_cons_of_mem _ hgm))] at h2
      simpa using h2
    · rintro ⟨hmemall, p0, hp0, hrun⟩
      have hvt0 : toLowerStr t0 = t0 := hlow t0 (List.mem_cons_self _ _)
      have ht0w : t0 ∈ dd.words := hmemall t0 (List.mem_cons_self _ _)
      have hlk : ∀ t ∈ t0 :: rest,
          lookupEntry (buildFromDocData lg ds) t
            = some (buildEntry lg ds t) := by
        intro t htc
        rw [lookupEntry_build lg ds (hlow t htc),
          if_pos (mem_indexVocab.mpr ⟨dd, hdd, hmemall t htc⟩)]
      refine ⟨⟨⟨buildEntry lg ds t0, hlk t0 (List.mem_cons_self _ _),
        mem_postingDocs_buildEntry.mpr ⟨dd, hdd, ht0w, rfl⟩⟩,
        fun t htr => ⟨buildEntry lg ds t, hlk t (List.mem_cons_of_mem _ htr),
          mem_postingDocs_buildEntry.mpr
            ⟨dd, hdd, hmemall t (List.mem_cons_of_mem _ htr), rfl⟩⟩⟩, ?_⟩
      show ((positionsOf (buildFromDocData lg ds) t0 dd.id).any
          (fun p0 => (List.range rest.length).all (fun i =>
            (positionsOf (buildFromDocData lg ds) (rest.getD i "")
              dd.id).contains (p0 + i + 1)))) = true
      rw [positionsOf_build hn hdd ht0w hvt0]
      refine List.any_eq_true.mpr ⟨p0, hp0, List.all_eq_true.mpr
        (fun i hir => ?_)⟩
      have hi : i < rest.length := List.mem_range.mp hir
      have hgm : rest.getD i "" ∈ rest := getD_mem_of_lt hi
      rw [positionsOf_build hn hdd
        (hmemall _ (List.mem_cons_of_mem _ hgm))
        (hlow _ (List.mem_cons_of_mem _ hgm))]
      simpa using hrun i hi
  refine ⟨hchar, ?_, ?_⟩
  · rintro dd hdd ⟨p, hseq⟩
    refine (hchar dd hdd).mpr ⟨?_, ?_⟩
    · intro t htc
      obtain ⟨i, hi, rfl⟩ := List.mem_iff_getElem.mp htc
      have h0 := hseq i hi
      have hgd : (t0 :: rest)[i] = (t0 :: rest).getD i "" := by
        have := getD_getElem? hi
        rw [List.getElem?_eq_getElem hi] at this
        exact Option.some_injective _ this
      rw [← hgd] at h0
      obtain ⟨hlt, hv⟩ := List.getElem?_eq_some.mp h0
      exact hv ▸ List.getElem_mem hlt
    · simp only [List.headD_cons, List.length_cons, Nat.add_sub_cancel,
        List.getD_cons_succ]
      have h0 := hseq 0 (by simp)
      refine ⟨p, ?_, fun i hi => ?_⟩
      · rw [posAux_mem_iff]
        simpa using h0
      · have hstep := hseq (i + 1) (by simpa using Nat.succ_lt_succ hi)
        rw [posAux_mem_iff]
        have : p + (i + 1) = p + i + 1 := by omega
        rw [this] at hstep
        simpa [List.getD_cons_succ] using hstep
  · intro x hx hlen
    obtain ⟨hxc, hchk⟩ := mem_phraseAssembled_docIds.mp hx
    obtain ⟨⟨e0, he0, _⟩, hall⟩ := mem_commonDocs.mp hxc
    have hsome : ((t0 :: rest).all
        (fun t => (lookupEntry (buildFromDocData lg ds) t).isSome)) = true := by
      refine List.all_eq_true.mpr fun t htc => ?_
      rcases List.mem_cons.mp htc with rfl | htr
      · rw [he0]; rfl
      · obtain ⟨e, he, _⟩ := hall t htr
        rw [he]; rfl
    have hps : phrase_search (buildFromDocData lg ds) (t0 :: rest) prev
        = (limitResults (phraseAssembled (buildFromDocData lg ds) (t0 :: rest)),
           (phraseAssembled (buildFromDocData lg ds) (t0 :: rest)).length) := by
      unfold phrase_search
      rw [if_neg (by simp), if_pos hsome]
    rw [hps]
    have hperm := @limitResults_perm_of_le
      (phraseAssembled (buildFromDocData lg ds) (t0 :: rest)) (by omega)
    exact ((hperm.map (fun r => r.doc_id)).mem_iff).mpr hx

unseal Rat.add Rat.mul Rat.inv Nat.gcd List.merge List.mergeSort in
theorem phrase_match_characterization_witness :
    (∀ dd ∈ exDs,
      (dd.id ∈ (phraseAssembled (buildFromDocData lgEx exDs) ["cat", "dog"]).map
          (fun r => r.doc_id)
        ↔ (∀ t ∈ (["cat", "dog"] : List String), t ∈ dd.words) ∧
          ∃ p0 ∈ posAux dd.words 0 ((["cat", "dog"] : List String).headD ""),
            ∀ i < (["cat", "dog"] : List String).length - 1,
              (p0 + i + 1) ∈ posAux dd.words 0
                ((["cat", "dog"] : List String).getD (i + 1) ""))) ∧
    (∀ dd ∈ exDs,
      (∃ p, ∀ i < (["cat", "dog"] : List String).length,
        dd.words[p + i]? = some ((["cat", "dog"] : List String).getD i "")) →
      dd.id ∈ (phraseAssembled (buildFromDocData lgEx exDs) ["cat", "dog"]).map
        (fun r => r.doc_id)) ∧
    (∀ x ∈ (phraseAssembled (buildFromDocData lgEx exDs) ["cat", "dog"]).map
        (fun r => r.doc_id),
      (phraseAssembled (buildFromDocData lgEx exDs) ["cat", "dog"]).length ≤ 100 →
      x ∈ (phrase_search (buildFromDocData lgEx exDs) ["cat", "dog"] 0).1.map
        (fun r => r.doc_id)) :=
  phrase_match_characterization lgEx exDs 0 ["cat", "dog"]
    (by decide) (by decide) (by decide)

set_option maxHeartbeats 12000000 in
set_option maxRecDepth 200000 in
unseal Rat.add Rat.mul Rat.inv Nat.gcd List.merge List.mergeSort in
/-- C5 counterexample: in a corpus of 101 documents each tokenizing to
`cat dog`, all 101 documents contain the exact phrase and match it, but
the query returns only 100 results, so some document containing the
phrase is not returned. -/
theorem phrase_cap_drops_a_match :
    (∀ d ∈ bigDs, d.words = ["cat", "dog"]) ∧
    (phraseAssembled bigIdx ["cat", "dog"]).length = 101 ∧
    (phrase_search bigIdx ["cat", "dog"] 0).1.length = 100 ∧
    ¬ (∀ x ∈ (phraseAssembled bigIdx ["cat", "dog"]).map (fun r => r.doc_id),
        x ∈ (phrase_search bigIdx ["cat", "dog"] 0).1.map
          (fun r => r.doc_id)) := by
  have h1 : ∀ d ∈ bigDs, d.words = ["cat", "dog"] := by decide
  have h2 : ((phraseAssembled bigIdx ["cat", "dog"]).map
      (fun r => r.doc_id)).Nodup := by decide
  have h3 : (phraseAssembled bigIdx ["cat", "dog"]).length = 101 := by decide
  have h4 : (phrase_search bigIdx ["cat", "dog"] 0).1.length = 100 := by decide
  refine ⟨h1, h3, h4, ?_⟩
  intro hall
  have hsub := (List.Nodup.subperm h2 (fun x hx => hall x hx)).length_le
  rw [List.length_map, List.length_map, h3, h4] at hsub
  omega

unseal Rat.add Rat.mul Rat.inv Nat.gcd List.merge List.mergeSort in
/-- C3 counterexample: in the tied two-document corpus the two postings
of `cat` tie at TF-IDF 0 yet come out in insertion order `b1000`,
`a1000`, not in the ascending document-id order `a1000`, `b1000` the
claim states. -/
theorem posting_tie_not_docId_sorted :
    (lookupEntry tieIdx "cat").map
        (fun e => e.postings.map (fun p => (p.doc_id, p.tf_idf)))
      = some [("b1000", 0), ("a1000", 0)] ∧
    (lookupEntry tieIdx "cat").map
        (fun e => e.postings.map (fun p => (p.doc_id, p.tf_idf)))
      ≠ some [("a1000", 0), ("b1000", 0)] := by
  decide

end WebSearch
